import Mathlib

/-!
A shallow embedding of the pickle-reactor virtual-DOM core
(`shared/vdom.py`, `shared/state.py`, `server/ssr.py`,
`static/client_runtime.py`) together with theorems that settle the
claims of the specification.

Modelling conventions:
* Python strings are Lean `String` (with `List Char` as the working
  representation inside proofs);
* Python lists are Lean `List`;
* Python dicts, whose iteration order is insertion order, are
  association lists;
* the dynamically-typed attribute values are the closed sum `PropVal`;
* the mutable browser DOM touched by the client runtime is modelled by
  the trace of primitive DOM calls the runtime performs, together with
  a counter that supplies the identity of each freshly created host
  element (`createElement`); a `VNode`'s mutable `_el` slot is the
  `el : Option Nat` field of the node, rebuilt functionally.
-/

namespace PickleReactor

/-! ## Characters and HTML escaping: `html.escape(s)` with `quote=True`,
as used by `server/ssr.py` (`from html import escape as esc`). -/

def chAmp : Char := '&'
def chLt : Char := '<'
def chGt : Char := '>'
def chQuot : Char := Char.ofNat 34
def chApos : Char := Char.ofNat 39

/-- The replacement `html.escape` performs on a single character.
`html.escape` replaces `&` first and the other characters afterwards,
which is equivalent to this single-pass character map. -/
def escChar (c : Char) : List Char :=
  if c = chAmp then [chAmp, 'a', 'm', 'p', ';']
  else if c = chLt then [chAmp, 'l', 't', ';']
  else if c = chGt then [chAmp, 'g', 't', ';']
  else if c = chQuot then [chAmp, 'q', 'u', 'o', 't', ';']
  else if c = chApos then [chAmp, '#', 'x', '2', '7', ';']
  else [c]

def escapeHtmlL : List Char → List Char
  | [] => []
  | c :: cs => escChar c ++ escapeHtmlL cs

/-- `html.escape(s, quote=True)`. -/
def escapeHtml (s : String) : String := ⟨escapeHtmlL s.data⟩

/-- `listPre p l`: `p` is a prefix of the character list `l`. -/
def listPre : List Char → List Char → Bool
  | [], _ => true
  | _ :: _, [] => false
  | a :: as, b :: bs => a = b && listPre as bs

/-- `k.startswith("on_")`, computed on the character list. -/
def startsOn (k : String) : Bool := listPre ['o', 'n', '_'] k.data

/-- `k[len("on_"):]`: the event name with the `on_` prefix stripped. -/
def eventName (k : String) : String := ⟨k.data.drop 3⟩

/-! ## Attribute values

`VNode.props` maps attribute names to dynamically typed values: the
booleans `True`/`False`, `None`, strings, numbers, callables (event
handlers) and nested style dicts.  `strOfVal` models Python `str(v)`
for each shape. -/

inductive PropVal where
  | pTrue
  | pFalse
  | pNone
  | pStr (s : String)
  | pNum (n : Int)
  | pFn (id : Nat) (rep : String)
  | pStyle (kvs : List (String × String))
deriving DecidableEq

/-- A one-character string holding a double quote. -/
def qmS : String := ⟨[chQuot]⟩

/-- A one-character string holding an apostrophe. -/
def aposS : String := ⟨[chApos]⟩

/-- `str(d)` for a dict of simple strings, e.g. `{'color': 'red'}`. -/
def reprStyle (kvs : List (String × String)) : String :=
  "\x7b" ++
    String.intercalate ", "
      (kvs.map (fun kv => aposS ++ kv.1 ++ aposS ++ ": " ++ aposS ++ kv.2 ++ aposS)) ++
  "\x7d"

/-- Python `str(v)`.  `pFn` carries the (opaque) text `str` produces for
the callable. -/
def strOfVal : PropVal → String
  | .pTrue => "True"
  | .pFalse => "False"
  | .pNone => "None"
  | .pStr s => s
  | .pNum n => toString n
  | .pFn _ rep => rep
  | .pStyle kvs => reprStyle kvs

/-! ## The node model (`shared/vdom.py`, class `VNode`) -/

/-- `VNode(tag, props, children, key, _el)`.  A bare string child is a
text node.  `el` is the mutable `_el` slot holding the attached host
element, client-side only. -/
inductive VTree where
  | text (s : String)
  | elem (tag : String) (props : List (String × PropVal))
      (children : List VTree) (key : Option String) (el : Option Nat)

/-- `h(tag, props, *children)` from `shared/vdom.py`. -/
def h (tag : String) (props : List (String × PropVal)) (children : List VTree) : VTree :=
  .elem tag props children none none

/-! ## The string renderer (`server/ssr.py`, `render_to_string`) -/

/-- The entry one attribute contributes to `attr_parts`:
event handlers (`on_` name prefix) are skipped, `True` contributes the
bare name, `False`/`None` are omitted, anything else contributes
`name="<escaped str(v)>"`. -/
def attrPart (k : String) (v : PropVal) : Option String :=
  if startsOn k then none
  else
    match v with
    | .pTrue => some k
    | .pFalse => none
    | .pNone => none
    | _ => some (k ++ "=" ++ qmS ++ escapeHtml (strOfVal v) ++ qmS)

/-- The `attr_parts` list built by the loop over `props.items()`. -/
def attrParts (props : List (String × PropVal)) : List String :=
  props.filterMap (fun kv => attrPart kv.1 kv.2)

/-- `" ".join(parts)`. -/
def joinSpace : List String → String
  | [] => ""
  | [p] => p
  | p :: q :: rest => p ++ " " ++ joinSpace (q :: rest)

/-- `attrs = (" " + " ".join(attr_parts)) if attr_parts else ""`. -/
def renderAttrs (props : List (String × PropVal)) : String :=
  let parts := attrParts props
  if parts.isEmpty then "" else " " ++ joinSpace parts

mutual
/-- `render_to_string(node)`: text nodes are escaped; a `VNode` is
rendered as `<tag attrs>children</tag>`. -/
def render_to_string : VTree → String
  | .text s => escapeHtml s
  | .elem tag props children _ _ =>
      "<" ++ tag ++ renderAttrs props ++ ">" ++
        renderChildren children ++ "</" ++ tag ++ ">"

/-- `"".join(render_to_string(c) for c in children)`. -/
def renderChildren : List VTree → String
  | [] => ""
  | c :: cs => render_to_string c ++ renderChildren cs
end

/-! ## The hook engine (`shared/state.py`)

`ComponentInstance` is `Inst`: the per-instance `state` list, the
`hook_index` cursor, and the optional `schedule_update` callback (the
callback itself is opaque; the model records whether one is registered
and counts its invocations).

`use_state` and `render_component` communicate through the module-level
global `_current_instance : Optional[ComponentInstance]`, modelled as an
`Option (Inst α)` threaded explicitly; `none` is the cleared pointer.
Python exceptions are modelled with `Except String`. -/

structure Inst (α : Type) where
  state : List α
  hookIndex : Nat
  hasSchedule : Bool

/-- The argument of `use_state`: either a plain initial value or a
zero-argument producer (`callable(initial)` distinguishes the two). -/
inductive Init (α : Type) where
  | value (v : α)
  | producer (f : Unit → α)

/-- `initial() if callable(initial) else initial`. -/
def evalInit {α : Type} : Init α → α
  | .value v => v
  | .producer f => f ()

/-- The body of `use_state` once `_current_instance` is known to be a
live instance `inst`.  Returns the value read, the mutated instance and
whether the initializer was evaluated (the slot was created).  Reading
`inst.state[idx]` out of range is Python's `IndexError`; the append, if
any, has already happened at that point and `hook_index` has not been
incremented. -/
def useStateI {α : Type} (initial : Init α) (inst : Inst α) :
    Except String α × Inst α × Bool :=
  let idx := inst.hookIndex
  let created := inst.state.length ≤ idx
  let st1 := if created then inst.state ++ [evalInit initial] else inst.state
  if h : idx < st1.length then
    (.ok (st1.get ⟨idx, h⟩),
     { inst with state := st1, hookIndex := idx + 1 }, created)
  else
    (.error "IndexError", { inst with state := st1 }, created)

/-- The exception message raised by `use_state` when
`_current_instance is None`. -/
def noCtxMsg : String := "use_state called outside component render"

/-- Module-level `use_state(initial)`: the result (or exception), the
value of `_current_instance` afterwards, and whether the initializer was
evaluated. -/
def use_state {α : Type} (initial : Init α) (g : Option (Inst α)) :
    Except String α × Option (Inst α) × Bool :=
  match g with
  | none => (.error noCtxMsg, none, false)
  | some inst =>
      let (r, inst1, created) := useStateI initial inst
      (r, some inst1, created)

/-- `set_value(new)` for the setter closure bound to slot `idx` of
`inst`: overwrite the slot in place, then invoke `schedule_update` if
one is registered.  The returned `Nat` counts the `schedule_update`
invocations this call performs (`1` or `0`); assigning to a
non-existent index is Python's `IndexError`. -/
def set_value {α : Type} (inst : Inst α) (idx : Nat) (new : α) :
    Except String (Inst α × Nat) :=
  if idx < inst.state.length then
    .ok ({ inst with state := inst.state.set idx new },
         if inst.hasSchedule then 1 else 0)
  else
    .error "IndexError"

/-- Repeated setter invocations on the same slot, one per element of
`vals`, summing the `schedule_update` invocation counts. -/
def setValueIter {α : Type} (inst : Inst α) (idx : Nat) (vals : List α) :
    Except String (Inst α × Nat) :=
  match vals with
  | [] => .ok (inst, 0)
  | v :: rest =>
      match set_value inst idx v with
      | .error e => .error e
      | .ok (inst1, c) =>
          match setValueIter inst1 idx rest with
          | .error e => .error e
          | .ok (inst2, c2) => .ok (inst2, c + c2)

/-! ### Component bodies and `render_component`

A component body is a straight-line sequence of `use_state` calls
followed by an outcome: either returning a `VTree` built from the hook
values, or raising an exception.  The argument of the `i`-th hook call
is computed, at the call site, from the values the earlier hooks
returned — exactly the data flow available to a Python component
function. -/

inductive Outcome (α : Type) where
  | ret (f : List α → VTree)
  | raiseExc

structure Comp (α : Type) where
  hooks : List (List α → Init α)
  outcome : Outcome α

/-- Run a body's hook calls through the module-level `use_state`,
accumulating the returned values, the global pointer, and the log of
state-slot indices whose initializer was evaluated. -/
def runBody {α : Type} (hooks : List (List α → Init α)) (vals : List α)
    (g : Option (Inst α)) :
    Except String (List α) × Option (Inst α) × List Nat :=
  match hooks with
  | [] => (.ok vals, g, [])
  | hk :: rest =>
      let logIdx : List Nat := match g with
        | some inst => [inst.hookIndex]
        | none => []
      let (r, g1, created) := use_state (hk vals) g
      match r with
      | .error e => (.error e, g1, [])
      | .ok v =>
          let (r2, g2, log2) := runBody rest (vals ++ [v]) g1
          (r2, g2, (if created then logIdx else []) ++ log2)

/-- The outcome of one `render_component` call: the returned node (or
the propagated exception), the instance's state afterwards, the value
of `_current_instance` afterwards, and the initializer-evaluation log
of this render. -/
structure RenderRes (α : Type) where
  result : Except String VTree
  inst : Inst α
  global : Option (Inst α)
  log : List Nat

/-- `render_component(component_fn, props, instance)`: set
`_current_instance = instance`, reset `instance.hook_index = 0`, invoke
`component_fn(props)`, then set `_current_instance = None` and return
the node.  There is no `try/finally`: if the component raises, the
clearing line is never reached and the global keeps pointing at the
instance.  `g0` is the value the global had before the call; it is
overwritten unconditionally. -/
def render_component {π α : Type} (componentFn : π → Comp α) (props : π)
    (inst : Inst α) (_g0 : Option (Inst α)) : RenderRes α :=
  let comp := componentFn props
  let inst0 := { inst with hookIndex := 0 }
  let (r, g1, log) := runBody comp.hooks [] (some inst0)
  match r with
  | .error e => ⟨.error e, g1.getD inst0, g1, log⟩
  | .ok vals =>
      match comp.outcome with
      | .ret f => ⟨.ok (f vals), g1.getD inst0, none, log⟩
      | .raiseExc => ⟨.error "component raised", g1.getD inst0, g1, log⟩

/-- `m` successive renders of the same component function with the same
props against the same instance (the client re-render loop), collecting
each render's initializer-evaluation log. -/
def renderN {π α : Type} (componentFn : π → Comp α) (props : π)
    (inst : Inst α) : Nat → Inst α × List (List Nat)
  | 0 => (inst, [])
  | m + 1 =>
      let r := render_component componentFn props inst none
      let (instF, logs) := renderN componentFn props r.inst m
      (instF, r.log :: logs)

/-! ## The client runtime (`static/client_runtime.py`)

The browser DOM is modelled by the trace of primitive DOM calls the
runtime performs.  Host elements are identified by the `Nat` drawn from
a counter when `js.document.createElement` runs; a parent reference is
the `Option Nat` stored in a `VNode`'s `_el` slot (`none` models an
`_el` that was never populated).  Each runtime function returns its
result, the advanced counter, and the list of DOM calls it performed,
in execution order. -/

abbrev Parent := Option Nat

/-- One property-level DOM call (`setAttribute`, `className = ...`,
`style[k] = ...`, `addEventListener`). -/
inductive PropAct where
  | setAttr (k v : String)
  | removeAttr (k : String)
  | setClass (v : PropVal)
  | clearClass
  | setStyle (k v : String)
  | clearStyle (k : String)
  | addListener (event : String)
deriving DecidableEq

/-- One primitive DOM call.  `removeTextAt`/`setTextAt` are the
index-based text-node calls, performed by the source under a live
`index < len(parent.childNodes)` guard; `moveEl` is a `move_node` call
(append or insert-before, decided inside `move_node` from the live
child count); `guardMoveEl` is the `move_node` call the keyed path
performs for a freshly mounted child under its own live
`new_idx < len(parent.childNodes)` guard. -/
inductive Op where
  | createEl (id : Nat) (tag : String)
  | appendText (parent : Parent) (s : String)
  | appendEl (parent : Parent) (id : Nat)
  | removeEl (id : Nat)
  | removeTextAt (parent : Parent) (idx : Nat)
  | setTextAt (parent : Parent) (idx : Nat) (s : String)
  | moveEl (parent : Parent) (el : Option Nat) (idx : Nat)
  | guardMoveEl (parent : Parent) (el : Option Nat) (idx : Nat)
  | propAct (target : Option Nat) (a : PropAct)
deriving DecidableEq

/-- The `_el` slot of a node (`none` for text nodes, which never get
one). -/
def elOf : VTree → Option Nat
  | .text _ => none
  | .elem _ _ _ _ el => el

def tagOf : VTree → Option String
  | .text _ => none
  | .elem tag _ _ _ _ => some tag

/-- `v` is a callable (`callable(v)` in Python). -/
def isCallable : PropVal → Bool
  | .pFn _ _ => true
  | _ => false

/-- `isinstance(v, dict)`. -/
def styleDict : PropVal → Option (List (String × String))
  | .pStyle kvs => some kvs
  | _ => none

/-- The prop-application loop of `mount`: event handlers get a
listener, `class` sets `className`, a `style` dict sets each style
property, anything else becomes `setAttribute(k, str(v))`. -/
def mountProps (el : Nat) (props : List (String × PropVal)) : List Op :=
  match props with
  | [] => []
  | (k, v) :: rest =>
      (if startsOn k && isCallable v then
        [.propAct (some el) (.addListener (eventName k))]
      else if k = "class" then
        [.propAct (some el) (.setClass v)]
      else
        match styleDict v with
        | some kvs =>
            if k = "style" then
              kvs.map (fun sv => .propAct (some el) (.setStyle sv.1 sv.2))
            else [.propAct (some el) (.setAttr k (strOfVal v))]
        | none => [.propAct (some el) (.setAttr k (strOfVal v))]) ++
      mountProps el rest

mutual
/-- `mount(parent, vnode)`: text appends a fresh text node; an element
is created (receiving the fresh host identity, stored in `_el`), its
props applied, its children mounted into it in order, and the element
appended to `parent`. -/
def mount (parent : Parent) (v : VTree) (n : Nat) : VTree × Nat × List Op :=
  match v with
  | .text s => (.text s, n, [.appendText parent s])
  | .elem tag props children key _ =>
      let id := n
      let (children', n1, opsC) := mountList (some id) children (n + 1)
      (.elem tag props children' key (some id), n1,
        .createEl id tag :: (mountProps id props ++ opsC ++ [.appendEl parent id]))

/-- `for child in (vnode.children or []): mount(el, child)`. -/
def mountList (parent : Parent) (vs : List VTree) (n : Nat) :
    List VTree × Nat × List Op :=
  match vs with
  | [] => ([], n, [])
  | v :: rest =>
      let (v', n1, o1) := mount parent v n
      let (rest', n2, o2) := mountList parent rest n1
      (v' :: rest', n2, o1 ++ o2)
end

/-- `remove_node(parent, vnode, index)`: a text node is removed through
`parent.childNodes[index]` (under the live-length guard); an element
node calls `vnode._el.remove()` when `_el` is populated and does
nothing when it is falsy. -/
def remove_node (parent : Parent) (v : VTree) (idx : Nat) : List Op :=
  match v with
  | .text _ => [.removeTextAt parent idx]
  | .elem _ _ _ _ el =>
      match el with
      | some id => [.removeEl id]
      | none => []

/-- `move_node(parent, element, new_index)` (append vs insert-before is
resolved inside the call from the live child count). -/
def move_node (parent : Parent) (el : Option Nat) (idx : Nat) : List Op :=
  [.moveEl parent el idx]

/-- `key in props` for the association-list model of a dict. -/
def hasKey (props : List (String × PropVal)) (k : String) : Bool :=
  props.any (fun kv => kv.1 = k)

/-- `props.get(key)` (returning Python `None` as `Option.none`). -/
def getProp (props : List (String × PropVal)) (k : String) : Option PropVal :=
  (props.find? (fun kv => kv.1 = k)).map (fun kv => kv.2)

/-- First loop of `patch_props`: drop every old prop absent from the
new props (event handlers are deliberately left alone, `class` is
cleared, a style dict has each of its properties cleared, anything else
is `removeAttribute`d). -/
def patchPropsRemove (el : Option Nat) (old new : List (String × PropVal)) : List Op :=
  match old with
  | [] => []
  | (k, v) :: rest =>
      (if hasKey new k then []
       else if startsOn k then []
       else if k = "class" then [.propAct el .clearClass]
       else if k = "style" then
         match styleDict v with
         | some kvs => kvs.map (fun sv => .propAct el (.clearStyle sv.1))
         | none => []
       else [.propAct el (.removeAttr k)]) ++
      patchPropsRemove el rest new

/-- `old_value == value`: Python compares the looked-up old value (or
the `None` default) with the new value. -/
def sameVal (oldv : Option PropVal) (v : PropVal) : Bool :=
  match oldv with
  | some ov => ov = v
  | none => v = .pNone

/-- The style-dict diff of `patch_props`: clear the properties dropped
from the old style dict, then set every property of the new one. -/
def patchStyle (el : Option Nat) (oldStyle newKvs : List (String × String)) : List Op :=
  (oldStyle.filterMap (fun sv =>
      if newKvs.any (fun nv => nv.1 = sv.1) then none
      else some (.propAct el (.clearStyle sv.1)))) ++
  newKvs.map (fun sv => .propAct el (.setStyle sv.1 sv.2))

/-- Second loop of `patch_props`: for every new prop, skip it when the
old value compares equal, otherwise attach a listener / set `className`
/ diff the style dict / `setAttribute`. -/
def patchPropsAdd (el : Option Nat) (old new : List (String × PropVal)) : List Op :=
  match new with
  | [] => []
  | (k, v) :: rest =>
      (if sameVal (getProp old k) v then []
       else if startsOn k && isCallable v then
         [.propAct el (.addListener (eventName k))]
       else if k = "class" then [.propAct el (.setClass v)]
       else
         match styleDict v with
         | some kvs =>
             if k = "style" then
               let oldStyle := match getProp old "style" with
                 | some ov => (styleDict ov).getD []
                 | none => []
               patchStyle el oldStyle kvs
             else [.propAct el (.setAttr k (strOfVal v))]
         | none => [.propAct el (.setAttr k (strOfVal v))]) ++
      patchPropsAdd el old rest

/-- `patch_props(element, old_props, new_props)`. -/
def patch_props (el : Option Nat) (old new : List (String × PropVal)) : List Op :=
  patchPropsRemove el old new ++ patchPropsAdd el old new

/-- The keyed-children heuristic of `patch`: the children are treated
as keyed iff the list is non-empty and its first entry is a `VNode`
whose `key` is not `None`. -/
def has_keys : List VTree → Bool
  | [] => false
  | c :: _ =>
      match c with
      | .text _ => false
      | .elem _ _ _ key _ => key.isSome

/-- The truthiness test `not isinstance(child, str) and
hasattr(child, 'key') and child.key` used by `patch_keyed_children`
(an empty-string key is falsy and treated as unkeyed). -/
def truthyKey : VTree → Option String
  | .text _ => none
  | .elem _ _ _ key _ =>
      match key with
      | some s => if s = "" then none else some s
      | none => none

/-- Insertion into the dict model: assigning to an existing key keeps
its position, a new key is appended. -/
def dictInsert (m : List (String × Nat × VTree)) (k : String) (v : Nat × VTree) :
    List (String × Nat × VTree) :=
  if m.any (fun e => e.1 = k) then
    m.map (fun e => if e.1 = k then (k, v) else e)
  else m ++ [(k, v)]

/-- `old_keyed` construction: `for i, child in enumerate(children)`,
keeping `(i, child)` for every child with a truthy key. -/
def buildKeyedAux (cs : List VTree) (i : Nat) (acc : List (String × Nat × VTree)) :
    List (String × Nat × VTree) :=
  match cs with
  | [] => acc
  | c :: rest =>
      let acc' := match truthyKey c with
        | some k => dictInsert acc k (i, c)
        | none => acc
      buildKeyedAux rest (i + 1) acc'

def build_keyed (cs : List VTree) : List (String × Nat × VTree) :=
  buildKeyedAux cs 0 []

/-- `old_keyed[key]` lookup. -/
def dictGet (m : List (String × Nat × VTree)) (k : String) : Option (Nat × VTree) :=
  (m.find? (fun e => e.1 = k)).map (fun e => e.2)

/-- Second pass of `patch_keyed_children`: iterate `old_keyed` in
insertion order and remove every entry whose key is not in
`used_keys`. -/
def keyedRemovals (parent : Parent) (oldKeyed : List (String × Nat × VTree))
    (used : List String) : List Op :=
  match oldKeyed with
  | [] => []
  | e :: rest =>
      (if used.contains e.1 then [] else remove_node parent e.2.2 0) ++
      keyedRemovals parent rest used

/-- The removal loop of `patch_children`:
`for i in range(new_len, old_len): remove_node(parent, old_children[i], new_len)`
— it runs after all common-index patches, referencing the original old
nodes, with the constant index argument `new_len`. -/
def removeExtras (parent : Parent) (extras : List VTree) (atIdx : Nat) : List Op :=
  match extras with
  | [] => []
  | o :: os => remove_node parent o atIdx ++ removeExtras parent os atIdx

mutual
/-- Size measure on trees used for the termination of `patch`. -/
@[simp] def tsize : VTree → Nat
  | .text _ => 1
  | .elem _ _ children _ _ => 1 + fsize children

/-- Size measure on child lists used for the termination of `patch`. -/
@[simp] def fsize : List VTree → Nat
  | [] => 0
  | c :: cs => 1 + tsize c + fsize cs
end

@[simp] def osize : Option VTree → Nat
  | none => 0
  | some t => tsize t

mutual
/-- `patch(parent, old_vnode, new_vnode, index)`.  Returns the new
vnode with its `_el` slot populated (Python mutates it in place). -/
def patch (parent : Parent) (oldV newV : Option VTree) (index : Nat) (n : Nat) :
    Option VTree × Nat × List Op :=
  match oldV, newV with
  | none, some nv =>
      let (t, n1, ops) := mount parent nv n
      (some t, n1, ops)
  | some ov, none => (none, n, remove_node parent ov index)
  | none, none => (none, n, [])
  | some ov, some nv =>
      match ov, nv with
      | .text so, .text sn =>
          (some (.text sn), n, if so = sn then [] else [.setTextAt parent index sn])
      | .text so, .elem tn pn cn kn en =>
          let (t, n1, ops) := mount parent (.elem tn pn cn kn en) n
          (some t, n1, remove_node parent (.text so) index ++ ops)
      | .elem to_ po co ko eo, .text sn =>
          let (t, n1, ops) := mount parent (.text sn) n
          (some t, n1, remove_node parent (.elem to_ po co ko eo) index ++ ops)
      | .elem to_ po co ko eo, .elem tn pn cn kn en =>
          if to_ ≠ tn then
            let (t, n1, ops) := mount parent (.elem tn pn cn kn en) n
            (some t, n1, remove_node parent (.elem to_ po co ko eo) index ++ ops)
          else
            let opsP := patch_props eo po pn
            if has_keys cn then
              let (cn', n1, opsC) := patch_keyed_children eo co cn n
              (some (.elem tn pn cn' kn eo), n1, opsP ++ opsC)
            else
              let (cn', n1, opsC) := patch_children eo co cn n
              (some (.elem tn pn cn' kn eo), n1, opsP ++ opsC)
termination_by 2 * osize newV
decreasing_by all_goals (simp_wf; omega)

/-- The first loop of `patch_children`: patch the children the two
lists have in common, index by index. -/
def patchCommon (parent : Parent) (olds news : List VTree) (i : Nat) (n : Nat) :
    List VTree × Nat × List Op :=
  match olds, news with
  | o :: os, nw :: ns =>
      let (t, n1, ops1) := patch parent (some o) (some nw) i n
      let (rest, n2, ops2) := patchCommon parent os ns (i + 1) n1
      (t.getD nw :: rest, n2, ops1 ++ ops2)
  | _, _ => ([], n, [])
termination_by 2 * fsize news
decreasing_by all_goals simp_wf <;> omega

/-- `patch_children(parent, old_children, new_children)`: patch the
common indices, then remove each extra old child (passing `new_len` as
the index argument), then mount each extra new child in order. -/
def patch_children (parent : Parent) (olds news : List VTree) (n : Nat) :
    List VTree × Nat × List Op :=
  let (patched, n1, ops1) := patchCommon parent olds news 0 n
  let ops2 := removeExtras parent (olds.drop news.length) news.length
  let (mounted, n2, ops3) := mountList parent (news.drop olds.length) n1
  (patched ++ mounted, n2, ops1 ++ ops2 ++ ops3)
termination_by 2 * fsize news + 1
decreasing_by all_goals simp_wf

/-- The first pass of `patch_keyed_children` over the new children:
children without a truthy key are skipped; a key found in `old_keyed`
is patched against its old node and moved if its index changed; a new
key is mounted and then moved into place (under the live-length
guard).  Returns the updated new children and the `used_keys` set. -/
def keyedPass (parent : Parent) (oldKeyed : List (String × Nat × VTree))
    (news : List VTree) (newIdx : Nat) (n : Nat) :
    List VTree × List String × Nat × List Op :=
  match news with
  | [] => ([], [], n, [])
  | c :: rest =>
      match truthyKey c with
      | none =>
          let (rest', used, n1, ops) := keyedPass parent oldKeyed rest (newIdx + 1) n
          (c :: rest', used, n1, ops)
      | some k =>
          match dictGet oldKeyed k with
          | some io =>
              let (t, n1, ops1) := patch parent (some io.2) (some c) newIdx n
              let c' := t.getD c
              let opsMv := if io.1 ≠ newIdx then move_node parent (elOf c') newIdx else []
              let (rest', used, n2, ops2) := keyedPass parent oldKeyed rest (newIdx + 1) n1
              (c' :: rest', k :: used, n2, ops1 ++ opsMv ++ ops2)
          | none =>
              let (c', n1, ops1) := mount parent c n
              let opsMv : List Op := [.guardMoveEl parent (elOf c') newIdx]
              let (rest', used, n2, ops2) := keyedPass parent oldKeyed rest (newIdx + 1) n1
              (c' :: rest', k :: used, n2, ops1 ++ opsMv ++ ops2)
termination_by 2 * fsize news
decreasing_by all_goals simp_wf <;> omega

/-- `patch_keyed_children(parent, old_children, new_children)`.  (The
source also builds a `new_keyed` map that is never read afterwards;
it performs no DOM call and is omitted.)  After the first pass, every
entry of `old_keyed` whose key was not consumed is removed (with index
argument `0`, irrelevant for element nodes). -/
def patch_keyed_children (parent : Parent) (olds news : List VTree) (n : Nat) :
    List VTree × Nat × List Op :=
  let oldKeyed := build_keyed olds
  let (news', used, n1, ops1) := keyedPass parent oldKeyed news 0 n
  (news', n1, ops1 ++ keyedRemovals parent oldKeyed used)
termination_by 2 * fsize news + 1
decreasing_by all_goals simp_wf
end

/-! ## Observables used to state the claims -/

/-- The five characters `html.escape` rewrites. -/
def specialChars : List Char := [chAmp, chLt, chGt, chQuot, chApos]

/-- A string free of the five special characters (the data-model
invariant for tag names and attribute names, which are emitted raw). -/
def safeStr (s : String) : Bool := s.data.all (fun c => !(specialChars.contains c))

def safeProps (props : List (String × PropVal)) : Bool :=
  props.all (fun kv => safeStr kv.1)

mutual
/-- All tag names and attribute names in the tree are special-free. -/
def safeTree : VTree → Bool
  | .text _ => true
  | .elem tag props children _ _ => safeStr tag && safeProps props && safeForest children

def safeForest : List VTree → Bool
  | [] => true
  | c :: cs => safeTree c && safeForest cs
end

/-- The attribute `(k, v)` is emitted in `name="value"` form (not
skipped as an event handler, bare boolean, or omitted value). -/
def emittedValued (k : String) (v : PropVal) : Bool :=
  !(startsOn k) &&
    (match v with
     | .pTrue => false
     | .pFalse => false
     | .pNone => false
     | _ => true)

def valuedCountProps (props : List (String × PropVal)) : Nat :=
  (props.filter (fun kv => emittedValued kv.1 kv.2)).length

mutual
/-- Number of `VNode`s (non-text nodes) in a tree. -/
def elemCount : VTree → Nat
  | .text _ => 0
  | .elem _ _ children _ _ => 1 + elemCountF children

def elemCountF : List VTree → Nat
  | [] => 0
  | c :: cs => elemCount c + elemCountF cs
end

mutual
/-- Number of attributes over the whole tree that render in
`name="value"` form. -/
def valuedAttrs : VTree → Nat
  | .text _ => 0
  | .elem _ props children _ _ => valuedCountProps props + valuedAttrsF children

def valuedAttrsF : List VTree → Nat
  | [] => 0
  | c :: cs => valuedAttrs c + valuedAttrsF cs
end

mutual
/-- The raw texts of all text children of a tree, in order. -/
def collectTexts : VTree → List String
  | .text s => [s]
  | .elem _ _ children _ _ => collectTextsF children

def collectTextsF : List VTree → List String
  | [] => []
  | c :: cs => collectTexts c ++ collectTextsF cs
end

mutual
/-- The values of all attributes of the tree that render in
`name="value"` form. -/
def collectVals : VTree → List PropVal
  | .text _ => []
  | .elem _ props children _ _ =>
      (props.filter (fun kv => emittedValued kv.1 kv.2)).map (fun kv => kv.2) ++
        collectValsF children

def collectValsF : List VTree → List PropVal
  | [] => []
  | c :: cs => collectVals c ++ collectValsF cs
end

/-- The entity tails that may legitimately follow a `&` in escaped
output: `amp;`, `lt;`, `gt;`, `quot;`, `#x27;`. -/
def entTails : List (List Char) :=
  [['a', 'm', 'p', ';'], ['l', 't', ';'], ['g', 't', ';'],
   ['q', 'u', 'o', 't', ';'], ['#', 'x', '2', '7', ';']]

/-- Every `&` in the character list starts one of the five known
entities: nothing in the text reads as an unescaped ampersand. -/
def ampOk : List Char → Bool
  | [] => true
  | c :: cs => (if c = chAmp then entTails.any (fun t => listPre t cs) else true) && ampOk cs

/-- `l` is ampersand-clean in any context: appending it in front of any
continuation neither introduces a bad `&` nor hides one. -/
def AmpGood (l : List Char) : Prop := ∀ r, ampOk (l ++ r) = ampOk r

/-- The host identities removed (`element.remove()`) by a trace. -/
def removeIds (ops : List Op) : List Nat :=
  ops.filterMap (fun op => match op with | .removeEl id => some id | _ => none)

/-- The host identities created (`createElement`) by a trace. -/
def createIds (ops : List Op) : List Nat :=
  ops.filterMap (fun op => match op with | .createEl id _ => some id | _ => none)

mutual
/-- All populated `_el` host identities of a tree. -/
def treeEls : VTree → List Nat
  | .text _ => []
  | .elem _ _ children _ el => el.toList ++ forestEls children

def forestEls : List VTree → List Nat
  | [] => []
  | c :: cs => treeEls c ++ forestEls cs
end

def optEls : Option VTree → List Nat
  | none => []
  | some t => treeEls t

def keyedEls : List (String × Nat × VTree) → List Nat
  | [] => []
  | e :: rest => treeEls e.2.2 ++ keyedEls rest

/-- The `_el` identities strictly inside a tree (its children's els,
excluding the root's own `_el`). -/
def treeInnerEls : VTree → List Nat
  | .text _ => []
  | .elem _ _ children _ _ => forestEls children

/-- Old and new node are of the same kind so that `patch` reuses the
host: both text nodes, or both elements with equal tags. -/
def sameTag : VTree → VTree → Bool
  | .text _, .text _ => true
  | .elem to_ _ _ _ _, .elem tn _ _ _ _ => to_ = tn
  | _, _ => false

/-- The id-accounting invariant of `patch`: removed host ids come from
the old node, created ids are fresh (allocated in `[n, n')`), and the
counter never decreases. -/
def PFpatch (N : Nat) : Prop :=
  ∀ (parent : Parent) (oldV newV : Option VTree) (i n : Nat) (r : Option VTree)
    (n' : Nat) (ops : List Op), osize newV ≤ N →
    patch parent oldV newV i n = (r, n', ops) →
    (∀ id ∈ removeIds ops, id ∈ optEls oldV) ∧
    (∀ id ∈ createIds ops, n ≤ id ∧ id < n') ∧ n ≤ n'

/-- The same invariant for `patchCommon`. -/
def PFcommon (N : Nat) : Prop :=
  ∀ (parent : Parent) (olds news : List VTree) (i n : Nat) (vs' : List VTree)
    (n' : Nat) (ops : List Op), fsize news ≤ N →
    patchCommon parent olds news i n = (vs', n', ops) →
    (∀ id ∈ removeIds ops, id ∈ forestEls olds) ∧
    (∀ id ∈ createIds ops, n ≤ id ∧ id < n') ∧ n ≤ n'

/-- The same invariant for `keyedPass` (removals come from the keyed
map's trees). -/
def PFpass (N : Nat) : Prop :=
  ∀ (parent : Parent) (oldKeyed : List (String × Nat × VTree)) (news : List VTree)
    (j n : Nat) (news' : List VTree) (used : List String) (n' : Nat) (ops : List Op),
    fsize news ≤ N →
    keyedPass parent oldKeyed news j n = (news', used, n', ops) →
    (∀ id ∈ removeIds ops, id ∈ keyedEls oldKeyed) ∧
    (∀ id ∈ createIds ops, n ≤ id ∧ id < n') ∧ n ≤ n'

/-- The same invariant for `patch_children`. -/
def PFchildren (N : Nat) : Prop :=
  ∀ (parent : Parent) (olds news : List VTree) (n : Nat) (vs' : List VTree)
    (n' : Nat) (ops : List Op), fsize news ≤ N →
    patch_children parent olds news n = (vs', n', ops) →
    (∀ id ∈ removeIds ops, id ∈ forestEls olds) ∧
    (∀ id ∈ createIds ops, n ≤ id ∧ id < n') ∧ n ≤ n'

/-- The same invariant for `patch_keyed_children`. -/
def PFkeyed (N : Nat) : Prop :=
  ∀ (parent : Parent) (olds news : List VTree) (n : Nat) (vs' : List VTree)
    (n' : Nat) (ops : List Op), fsize news ≤ N →
    patch_keyed_children parent olds news n = (vs', n', ops) →
    (∀ id ∈ removeIds ops, id ∈ forestEls olds) ∧
    (∀ id ∈ createIds ops, n ≤ id ∧ id < n') ∧ n ≤ n'

/-! # Theorems

Supporting lemmas first, then one theorem `claim_Cn` per claim (plus a
witness where the theorem carries hypotheses). -/

theorem attrPart_onE (k : String) (v : PropVal) (hk : startsOn k = true) :
    attrPart k v = none := by
  unfold attrPart; simp [hk]

theorem attrPart_false (k : String) : attrPart k .pFalse = none := by
  unfold attrPart; split <;> rfl

theorem attrPart_none (k : String) : attrPart k .pNone = none := by
  unfold attrPart; split <;> rfl

theorem attrPart_true (k : String) (hk : startsOn k = false) :
    attrPart k .pTrue = some k := by
  unfold attrPart; simp [hk]

theorem attrParts_append (a b : List (String × PropVal)) :
    attrParts (a ++ b) = attrParts a ++ attrParts b := by
  simp [attrParts, List.filterMap_append]

theorem attrParts_cons_skip (k : String) (v : PropVal) (b : List (String × PropVal))
    (hv : attrPart k v = none) : attrParts ((k, v) :: b) = attrParts b := by
  simp [attrParts, hv]


/-! ### Escaping: the escaped special characters and the `&`-entity
discipline -/

theorem listPre_self (p : List Char) : ∀ r, listPre p (p ++ r) = true := by
  induction p with
  | nil => intro r; rfl
  | cons a as ih => intro r; simp [listPre, ih]

theorem ampOk_nil : ampOk [] = true := rfl

theorem ampOk_cons (c : Char) (cs : List Char) :
    ampOk (c :: cs) =
      ((if c = chAmp then entTails.any (fun t => listPre t cs) else true) && ampOk cs) := rfl

theorem ampGood_nil : AmpGood [] := fun _ => rfl

theorem ampGood_append {a b : List Char} (ha : AmpGood a) (hb : AmpGood b) :
    AmpGood (a ++ b) := by
  intro r
  rw [List.append_assoc, ha, hb]

theorem ampGood_safe_cons {c : Char} (hc : ¬ c = chAmp) {l : List Char}
    (hl : AmpGood l) : AmpGood (c :: l) := by
  intro r
  rw [List.cons_append, ampOk_cons, if_neg hc, Bool.true_and, hl]

theorem ampGood_of_no_amp {l : List Char} (h : ∀ c ∈ l, ¬ c = chAmp) : AmpGood l := by
  induction l with
  | nil => exact ampGood_nil
  | cons c cs ih =>
      exact ampGood_safe_cons (h c (List.mem_cons_self c cs))
        (ih fun x hx => h x (List.mem_cons_of_mem c hx))

theorem ampGood_entity {tail : List Char} (ht : tail ∈ entTails)
    (hno : ∀ c ∈ tail, ¬ c = chAmp) : AmpGood (chAmp :: tail) := by
  intro r
  rw [List.cons_append, ampOk_cons, if_pos rfl]
  have hany : entTails.any (fun t => listPre t (tail ++ r)) = true := by
    rw [List.any_eq_true]
    exact ⟨tail, ht, listPre_self tail r⟩
  rw [hany, Bool.true_and, ampGood_of_no_amp hno]

theorem ampGood_escChar (c : Char) : AmpGood (escChar c) := by
  unfold escChar
  split_ifs with h1 h2 h3 h4 h5
  · exact ampGood_entity (by simp [entTails]) (by decide)
  · exact ampGood_entity (by simp [entTails]) (by decide)
  · exact ampGood_entity (by simp [entTails]) (by decide)
  · exact ampGood_entity (by simp [entTails]) (by decide)
  · exact ampGood_entity (by simp [entTails]) (by decide)
  · exact ampGood_safe_cons h1 ampGood_nil

theorem ampGood_escapeHtmlL (l : List Char) : AmpGood (escapeHtmlL l) := by
  induction l with
  | nil => exact ampGood_nil
  | cons c cs ih => exact ampGood_append (ampGood_escChar c) ih

theorem ampOk_of_ampGood {l : List Char} (h : AmpGood l) : ampOk l = true := by
  have := h []
  rwa [List.append_nil] at this

theorem escChar_count (c x : Char)
    (hx : x ∈ ([chLt, chGt, chQuot, chApos] : List Char)) :
    (escChar c).count x = 0 := by
  rw [List.count_eq_zero]
  intro hmem
  unfold escChar at hmem
  fin_cases hx <;> split_ifs at hmem <;> simp_all <;>
    revert hmem <;> decide

theorem escapeHtmlL_count (l : List Char) (x : Char)
    (hx : x ∈ ([chLt, chGt, chQuot, chApos] : List Char)) :
    (escapeHtmlL l).count x = 0 := by
  induction l with
  | nil => rfl
  | cons c cs ih =>
      show ((escChar c) ++ escapeHtmlL cs).count x = 0
      rw [List.count_append, escChar_count c x hx, ih]

theorem safeStr_count (s : String) (h : safeStr s = true) (x : Char)
    (hx : x ∈ specialChars) : s.data.count x = 0 := by
  rw [List.count_eq_zero]
  intro hmem
  unfold safeStr at h
  rw [List.all_eq_true] at h
  have hx2 := h x hmem
  rw [Bool.not_eq_eq_eq_not, Bool.not_true] at hx2
  have hx3 : x ∉ specialChars := by simpa using hx2
  exact hx3 hx

theorem safeStr_no_amp (s : String) (h : safeStr s = true) :
    ∀ c ∈ s.data, ¬ c = chAmp := by
  intro c hc heq
  have h0 := safeStr_count s h chAmp (by simp [specialChars])
  rw [List.count_eq_zero] at h0
  exact h0 (heq ▸ hc)

theorem joinSpace_count (x : Char) (hx : ¬ x = ' ') :
    ∀ parts : List String,
      (joinSpace parts).data.count x = (parts.map (fun p => p.data.count x)).sum
  | [] => rfl
  | [p] => by simp [joinSpace]
  | p :: q :: rest => by
      have ih := joinSpace_count x hx (q :: rest)
      show ((p ++ " " ++ joinSpace (q :: rest)).data).count x = _
      rw [String.data_append, String.data_append, List.count_append, List.count_append, ih]
      have hsp : (" ".data).count x = 0 := by
        rw [List.count_eq_zero]
        simpa using hx
      rw [hsp]
      simp

theorem joinSpace_ampGood :
    ∀ parts : List String, (∀ p ∈ parts, AmpGood p.data) →
      AmpGood (joinSpace parts).data
  | [], _ => ampGood_nil
  | [p], h => by simpa [joinSpace] using h p (by simp)
  | p :: q :: rest, h => by
      show AmpGood ((p ++ " " ++ joinSpace (q :: rest)).data)
      rw [String.data_append, String.data_append]
      refine ampGood_append (ampGood_append (h p (by simp)) ?_)
        (joinSpace_ampGood (q :: rest) ?_)
      · exact ampGood_of_no_amp (by decide)
      · intro pp hpp
        exact h pp (List.mem_cons_of_mem _ hpp)

theorem infix_ext {a m : List Char} (pre post : List Char) (h : a <:+: m) :
    a <:+: (pre ++ m ++ post) := by
  obtain ⟨s, t, rfl⟩ := h
  exact ⟨pre ++ s, t ++ post, by simp⟩

theorem joinSpace_infix_fact :
    ∀ (parts : List String) (p : String), p ∈ parts →
      p.data <:+: (joinSpace parts).data
  | [], p, hp => by simp at hp
  | [q], p, hp => by
      have : p = q := by simpa using hp
      subst this
      exact List.infix_refl _
  | q :: q2 :: rest, p, hp => by
      rcases List.mem_cons.mp hp with rfl | hp2
      · show p.data <:+: ((p ++ " " ++ joinSpace (q2 :: rest)).data)
        rw [String.data_append, String.data_append]
        exact ⟨[], " ".data ++ (joinSpace (q2 :: rest)).data, by simp⟩
      · have ih := joinSpace_infix_fact (q2 :: rest) p hp2
        show p.data <:+: ((q ++ " " ++ joinSpace (q2 :: rest)).data)
        rw [String.data_append, String.data_append]
        have := infix_ext (q.data ++ " ".data) [] ih
        simpa using this

theorem attrPart_emitted (k : String) (v : PropVal) (h : emittedValued k v = true) :
    attrPart k v = some (k ++ "=" ++ qmS ++ escapeHtml (strOfVal v) ++ qmS) := by
  unfold emittedValued at h
  rw [Bool.and_eq_true] at h
  obtain ⟨h1, h2⟩ := h
  have hk : startsOn k = false := by simpa using h1
  unfold attrPart
  rw [hk]
  cases v <;> simp_all

theorem valued_part_counts (k : String) (hk : safeStr k = true) (v : PropVal) :
    (k ++ "=" ++ qmS ++ escapeHtml (strOfVal v) ++ qmS).data.count chQuot = 2 ∧
    (k ++ "=" ++ qmS ++ escapeHtml (strOfVal v) ++ qmS).data.count chLt = 0 ∧
    (k ++ "=" ++ qmS ++ escapeHtml (strOfVal v) ++ qmS).data.count chGt = 0 ∧
    (k ++ "=" ++ qmS ++ escapeHtml (strOfVal v) ++ qmS).data.count chApos = 0 ∧
    AmpGood (k ++ "=" ++ qmS ++ escapeHtml (strOfVal v) ++ qmS).data := by
  have hdata : (k ++ "=" ++ qmS ++ escapeHtml (strOfVal v) ++ qmS).data =
      k.data ++ "=".data ++ [chQuot] ++ escapeHtmlL (strOfVal v).data ++ [chQuot] := by
    simp [String.data_append]
    rfl
  rw [hdata]
  have hesc := fun x hx => escapeHtmlL_count (strOfVal v).data x hx
  refine ⟨?_, ?_, ?_, ?_, ?_⟩
  · simp only [List.count_append]
    rw [safeStr_count k hk chQuot (by simp [specialChars]),
      hesc chQuot (by simp)]
    decide
  · simp only [List.count_append]
    rw [safeStr_count k hk chLt (by simp [specialChars]), hesc chLt (by simp)]
    decide
  · simp only [List.count_append]
    rw [safeStr_count k hk chGt (by simp [specialChars]), hesc chGt (by simp)]
    decide
  · simp only [List.count_append]
    rw [safeStr_count k hk chApos (by simp [specialChars]), hesc chApos (by simp)]
    decide
  · refine ampGood_append (ampGood_append (ampGood_append (ampGood_append
      (ampGood_of_no_amp (safeStr_no_amp k hk)) ?_) ?_)
      (ampGood_escapeHtmlL _)) ?_
    · exact ampGood_of_no_amp (by decide)
    · exact ampGood_of_no_amp (by decide)
    · exact ampGood_of_no_amp (by decide)

theorem attrParts_facts :
    ∀ props : List (String × PropVal), safeProps props = true →
      ((attrParts props).map (fun p => p.data.count chQuot)).sum =
        2 * valuedCountProps props ∧
      ((attrParts props).map (fun p => p.data.count chLt)).sum = 0 ∧
      ((attrParts props).map (fun p => p.data.count chGt)).sum = 0 ∧
      ((attrParts props).map (fun p => p.data.count chApos)).sum = 0 ∧
      (∀ p ∈ attrParts props, AmpGood p.data) := by
  intro props h
  induction props with
  | nil => exact ⟨rfl, rfl, rfl, rfl, by intro p hp; simp [attrParts] at hp⟩
  | cons kv rest ih =>
      obtain ⟨k, v⟩ := kv
      have hsk : safeStr k = true := by
        unfold safeProps at h
        rw [List.all_eq_true] at h
        exact h (k, v) (by simp)
      have hrest : safeProps rest = true := by
        unfold safeProps at h ⊢
        rw [List.all_eq_true] at h
        rw [List.all_eq_true]
        intro kv2 hkv2
        exact h kv2 (List.mem_cons_of_mem _ hkv2)
      obtain ⟨ih1, ih2, ih3, ih4, ih5⟩ := ih hrest
      by_cases hem : emittedValued k v = true
      · have hpart := attrPart_emitted k v hem
        have hcnt := valued_part_counts k hsk v
        have hparts : attrParts ((k, v) :: rest) =
            (k ++ "=" ++ qmS ++ escapeHtml (strOfVal v) ++ qmS) :: attrParts rest := by
          simp [attrParts, hpart]
        have hvc : valuedCountProps ((k, v) :: rest) = 1 + valuedCountProps rest := by
          unfold valuedCountProps
          simp [hem]
          omega
        rw [hparts, hvc]
        refine ⟨?_, ?_, ?_, ?_, ?_⟩
        · simp only [List.map_cons, List.sum_cons]
          rw [hcnt.1, ih1]
          omega
        · simp only [List.map_cons, List.sum_cons]
          rw [hcnt.2.1, ih2]
        · simp only [List.map_cons, List.sum_cons]
          rw [hcnt.2.2.1, ih3]
        · simp only [List.map_cons, List.sum_cons]
          rw [hcnt.2.2.2.1, ih4]
        · intro p hp
          rcases List.mem_cons.mp hp with rfl | hp2
          · exact hcnt.2.2.2.2
          · exact ih5 p hp2
      · have hem2 : emittedValued k v = false := by
          cases hb : emittedValued k v
          · rfl
          · exact absurd hb hem
        have hvc : valuedCountProps ((k, v) :: rest) = valuedCountProps rest := by
          unfold valuedCountProps
          simp [hem2]
        rcases hap : attrPart k v with _ | p
        · have hparts : attrParts ((k, v) :: rest) = attrParts rest := by
            simp [attrParts, hap]
          rw [hparts, hvc]
          exact ⟨ih1, ih2, ih3, ih4, ih5⟩
        · -- not emitted-valued but still some part: the bare `True` name
          have hbare : p = k := by
            rcases hso : startsOn k with _ | _
            · unfold attrPart at hap
              rw [hso] at hap
              unfold emittedValued at hem2
              rw [hso] at hem2
              cases v <;> simp_all
            · rw [attrPart_onE k v hso] at hap
              cases hap
          have hparts : attrParts ((k, v) :: rest) = k :: attrParts rest := by
            rw [hbare] at hap
            simp [attrParts, hap]
          rw [hparts, hvc]
          refine ⟨?_, ?_, ?_, ?_, ?_⟩
          · simp only [List.map_cons, List.sum_cons]
            rw [safeStr_count k hsk chQuot (by simp [specialChars]), ih1]
            omega
          · simp only [List.map_cons, List.sum_cons]
            rw [safeStr_count k hsk chLt (by simp [specialChars]), ih2]
          · simp only [List.map_cons, List.sum_cons]
            rw [safeStr_count k hsk chGt (by simp [specialChars]), ih3]
          · simp only [List.map_cons, List.sum_cons]
            rw [safeStr_count k hsk chApos (by simp [specialChars]), ih4]
          · intro p2 hp2
            rcases List.mem_cons.mp hp2 with rfl | hp3
            · exact ampGood_of_no_amp (safeStr_no_amp p2 hsk)
            · exact ih5 p2 hp3

theorem renderAttrs_facts (props : List (String × PropVal))
    (h : safeProps props = true) :
    (renderAttrs props).data.count chQuot = 2 * valuedCountProps props ∧
    (renderAttrs props).data.count chLt = 0 ∧
    (renderAttrs props).data.count chGt = 0 ∧
    (renderAttrs props).data.count chApos = 0 ∧
    AmpGood (renderAttrs props).data := by
  obtain ⟨h1, h2, h3, h4, h5⟩ := attrParts_facts props h
  unfold renderAttrs
  cases hemp : (attrParts props).isEmpty
  · simp only [hemp, Bool.false_eq_true, if_false]
    have hdata : (" " ++ joinSpace (attrParts props)).data =
        " ".data ++ (joinSpace (attrParts props)).data := String.data_append _ _
    rw [hdata]
    refine ⟨?_, ?_, ?_, ?_, ?_⟩
    · rw [List.count_append, joinSpace_count chQuot (by decide) (attrParts props), h1]
      have hs : List.count chQuot " ".data = 0 := by decide
      omega
    · rw [List.count_append, joinSpace_count chLt (by decide) (attrParts props), h2]
      have hs : List.count chLt " ".data = 0 := by decide
      omega
    · rw [List.count_append, joinSpace_count chGt (by decide) (attrParts props), h3]
      have hs : List.count chGt " ".data = 0 := by decide
      omega
    · rw [List.count_append, joinSpace_count chApos (by decide) (attrParts props), h4]
      have hs : List.count chApos " ".data = 0 := by decide
      omega
    · exact ampGood_append (ampGood_of_no_amp (by decide)) (joinSpace_ampGood _ h5)
  · have hnil : attrParts props = [] := List.isEmpty_iff.mp hemp
    rw [hnil] at h1
    simp only [hemp, if_true]
    refine ⟨?_, rfl, rfl, rfl, ampGood_nil⟩
    simp at h1
    simp [h1]

theorem tsize_pos : ∀ t : VTree, 1 ≤ tsize t := by
  intro t
  cases t with
  | text s => simp [tsize]
  | elem tag props children key el => simp [tsize]

theorem render_text_eq (s : String) : render_to_string (.text s) = escapeHtml s := by
  simp [render_to_string]

theorem render_elem_eq (tag : String) (props : List (String × PropVal))
    (children : List VTree) (key : Option String) (el : Option Nat) :
    render_to_string (.elem tag props children key el) =
      "<" ++ tag ++ renderAttrs props ++ ">" ++
        renderChildren children ++ "</" ++ tag ++ ">" := by
  simp [render_to_string]

theorem renderChildren_nil : renderChildren [] = "" := by
  simp [renderChildren]

theorem renderChildren_cons (c : VTree) (cs : List VTree) :
    renderChildren (c :: cs) = render_to_string c ++ renderChildren cs := by
  simp [renderChildren]

theorem render_elem_data (tag : String) (props : List (String × PropVal))
    (children : List VTree) (key : Option String) (el : Option Nat) :
    (render_to_string (.elem tag props children key el)).data =
      "<".data ++ (tag.data ++ ((renderAttrs props).data ++ (">".data ++
        ((renderChildren children).data ++ ("</".data ++ (tag.data ++ ">".data)))))) := by
  rw [render_elem_eq]
  simp [String.data_append]

theorem render_counts (N : Nat) :
    (∀ t, tsize t ≤ N → safeTree t = true →
      (render_to_string t).data.count chLt = 2 * elemCount t ∧
      (render_to_string t).data.count chGt = 2 * elemCount t ∧
      (render_to_string t).data.count chQuot = 2 * valuedAttrs t ∧
      (render_to_string t).data.count chApos = 0 ∧
      AmpGood (render_to_string t).data) ∧
    (∀ ts, fsize ts ≤ N → safeForest ts = true →
      (renderChildren ts).data.count chLt = 2 * elemCountF ts ∧
      (renderChildren ts).data.count chGt = 2 * elemCountF ts ∧
      (renderChildren ts).data.count chQuot = 2 * valuedAttrsF ts ∧
      (renderChildren ts).data.count chApos = 0 ∧
      AmpGood (renderChildren ts).data) := by
  induction N with
  | zero =>
      constructor
      · intro t ht
        exact absurd ht (by have := tsize_pos t; omega)
      · intro ts hts _
        cases ts with
        | nil => exact ⟨rfl, rfl, rfl, rfl, ampGood_nil⟩
        | cons c cs =>
            exact absurd hts (by have := tsize_pos c; simp only [fsize]; omega)
  | succ N ih =>
      constructor
      · intro t ht hsafe
        cases t with
        | text s =>
            rw [render_text_eq]
            have hd : (escapeHtml s).data = escapeHtmlL s.data := rfl
            rw [hd]
            exact ⟨escapeHtmlL_count s.data chLt (by simp),
              escapeHtmlL_count s.data chGt (by simp),
              escapeHtmlL_count s.data chQuot (by simp),
              escapeHtmlL_count s.data chApos (by simp),
              ampGood_escapeHtmlL s.data⟩
        | elem tag props children key el =>
            simp only [safeTree, Bool.and_eq_true] at hsafe
            obtain ⟨⟨htag, hprops⟩, hchildren⟩ := hsafe
            have hsz : fsize children ≤ N := by
              simp only [tsize] at ht
              omega
            obtain ⟨c1, c2, c3, c4, c5⟩ := ih.2 children hsz hchildren
            obtain ⟨a1, a2, a3, a4, a5⟩ := renderAttrs_facts props hprops
            rw [render_elem_data]
            have hlt1 : List.count chLt "<".data = 1 := by decide
            have hlt2 : List.count chLt ">".data = 0 := by decide
            have hlt3 : List.count chLt "</".data = 1 := by decide
            have hgt1 : List.count chGt "<".data = 0 := by decide
            have hgt2 : List.count chGt ">".data = 1 := by decide
            have hgt3 : List.count chGt "</".data = 0 := by decide
            have hq1 : List.count chQuot "<".data = 0 := by decide
            have hq2 : List.count chQuot ">".data = 0 := by decide
            have hq3 : List.count chQuot "</".data = 0 := by decide
            have hap1 : List.count chApos "<".data = 0 := by decide
            have hap2 : List.count chApos ">".data = 0 := by decide
            have hap3 : List.count chApos "</".data = 0 := by decide
            have htagLt := safeStr_count tag htag chLt (by simp [specialChars])
            have htagGt := safeStr_count tag htag chGt (by simp [specialChars])
            have htagQ := safeStr_count tag htag chQuot (by simp [specialChars])
            have htagAp := safeStr_count tag htag chApos (by simp [specialChars])
            refine ⟨?_, ?_, ?_, ?_, ?_⟩
            · simp only [List.count_append, hlt1, hlt2, hlt3, htagLt, a2, c1, elemCount]
              omega
            · simp only [List.count_append, hgt1, hgt2, hgt3, htagGt, a3, c2, elemCount]
              omega
            · simp only [List.count_append, hq1, hq2, hq3, htagQ, a1, c3, valuedAttrs]
              omega
            · simp only [List.count_append, hap1, hap2, hap3, htagAp, a4, c4]
            · refine ampGood_append (ampGood_of_no_amp (by decide))
                (ampGood_append (ampGood_of_no_amp (safeStr_no_amp tag htag))
                  (ampGood_append a5 (ampGood_append (ampGood_of_no_amp (by decide))
                    (ampGood_append c5 (ampGood_append (ampGood_of_no_amp (by decide))
                      (ampGood_append (ampGood_of_no_amp (safeStr_no_amp tag htag))
                        (ampGood_of_no_amp (by decide))))))))
      · intro ts hts hsafe
        cases ts with
        | nil => exact ⟨rfl, rfl, rfl, rfl, ampGood_nil⟩
        | cons c cs =>
            simp only [safeForest, Bool.and_eq_true] at hsafe
            obtain ⟨hc, hcs⟩ := hsafe
            have hsz1 : tsize c ≤ N := by
              simp only [fsize] at hts
              omega
            have hsz2 : fsize cs ≤ N := by
              simp only [fsize] at hts
              omega
            obtain ⟨t1, t2, t3, t4, t5⟩ := ih.1 c hsz1 hc
            obtain ⟨f1, f2, f3, f4, f5⟩ := ih.2 cs hsz2 hcs
            rw [renderChildren_cons]
            rw [String.data_append]
            refine ⟨?_, ?_, ?_, ?_, ?_⟩
            · simp only [List.count_append, t1, f1, elemCountF]
              omega
            · simp only [List.count_append, t2, f2, elemCountF]
              omega
            · simp only [List.count_append, t3, f3, valuedAttrsF]
              omega
            · simp only [List.count_append, t4, f4]
            · exact ampGood_append t5 f5

theorem infix_left (pre : List Char) {a m : List Char} (h : a <:+: m) :
    a <:+: pre ++ m := by
  have := infix_ext pre [] h
  simpa using this

theorem infix_right (post : List Char) {a m : List Char} (h : a <:+: m) :
    a <:+: m ++ post := by
  have := infix_ext [] post h
  simpa using this

theorem valued_part_data (k : String) (v : PropVal) :
    (k ++ "=" ++ qmS ++ escapeHtml (strOfVal v) ++ qmS).data =
      (k.data ++ "=".data ++ [chQuot]) ++ (escapeHtml (strOfVal v)).data ++ [chQuot] := by
  simp [String.data_append]
  rfl

theorem part_mem_attrParts (props : List (String × PropVal)) (k : String) (v : PropVal)
    (hkv : (k, v) ∈ props) (hem : emittedValued k v = true) :
    (k ++ "=" ++ qmS ++ escapeHtml (strOfVal v) ++ qmS) ∈ attrParts props := by
  unfold attrParts
  exact List.mem_filterMap.mpr ⟨(k, v), hkv, attrPart_emitted k v hem⟩

theorem esc_infix_renderAttrs (props : List (String × PropVal)) (k : String)
    (v : PropVal) (hkv : (k, v) ∈ props) (hem : emittedValued k v = true) :
    (escapeHtml (strOfVal v)).data <:+: (renderAttrs props).data := by
  have hpart := part_mem_attrParts props k v hkv hem
  have h1 : (escapeHtml (strOfVal v)).data <:+:
      (k ++ "=" ++ qmS ++ escapeHtml (strOfVal v) ++ qmS).data := by
    rw [valued_part_data]
    exact ⟨k.data ++ "=".data ++ [chQuot], [chQuot], rfl⟩
  have h2 := h1.trans (joinSpace_infix_fact (attrParts props) _ hpart)
  have hne : (attrParts props).isEmpty = false := by
    cases hp : attrParts props
    · rw [hp] at hpart
      simp at hpart
    · rfl
  have hra : renderAttrs props = " " ++ joinSpace (attrParts props) := by
    simp only [renderAttrs]
    rw [hne]
    simp
  rw [hra, String.data_append]
  exact infix_left (" ".data) h2

theorem collectVals_elem (tag : String) (props : List (String × PropVal))
    (children : List VTree) (key : Option String) (el : Option Nat) (v : PropVal)
    (hv : v ∈ collectVals (.elem tag props children key el)) :
    (∃ k, (k, v) ∈ props ∧ emittedValued k v = true) ∨ v ∈ collectValsF children := by
  unfold collectVals at hv
  rcases List.mem_append.mp hv with hl | hr
  · obtain ⟨kv, hkvmem, hkv2⟩ := List.mem_map.mp hl
    obtain ⟨hmem, hem⟩ := List.mem_filter.mp hkvmem
    left
    refine ⟨kv.1, ?_, ?_⟩
    · have : kv = (kv.1, v) := by
        cases kv
        simp at hkv2 ⊢
        exact hkv2
      rwa [this] at hmem
    · rw [hkv2] at hem
      exact hem
  · exact Or.inr hr

theorem render_elem_infix_child {a : List Char} (tag : String)
    (props : List (String × PropVal)) (children : List VTree)
    (key : Option String) (el : Option Nat)
    (h : a <:+: (renderChildren children).data) :
    a <:+: (render_to_string (.elem tag props children key el)).data := by
  rw [render_elem_data]
  refine infix_left _ (infix_left _ (infix_left _ (infix_left _ ?_)))
  exact infix_right _ h

theorem render_elem_infix_attrs {a : List Char} (tag : String)
    (props : List (String × PropVal)) (children : List VTree)
    (key : Option String) (el : Option Nat)
    (h : a <:+: (renderAttrs props).data) :
    a <:+: (render_to_string (.elem tag props children key el)).data := by
  rw [render_elem_data]
  refine infix_left _ (infix_left _ ?_)
  exact infix_right _ h

theorem render_infix_fact (N : Nat) :
    (∀ t, tsize t ≤ N →
      (∀ s ∈ collectTexts t, (escapeHtml s).data <:+: (render_to_string t).data) ∧
      (∀ v ∈ collectVals t, (escapeHtml (strOfVal v)).data <:+: (render_to_string t).data)) ∧
    (∀ ts, fsize ts ≤ N →
      (∀ s ∈ collectTextsF ts, (escapeHtml s).data <:+: (renderChildren ts).data) ∧
      (∀ v ∈ collectValsF ts, (escapeHtml (strOfVal v)).data <:+: (renderChildren ts).data)) := by
  induction N with
  | zero =>
      constructor
      · intro t ht
        exact absurd ht (by have := tsize_pos t; omega)
      · intro ts hts
        cases ts with
        | nil =>
            constructor
            · intro s hs
              simp [collectTextsF] at hs
            · intro v hv
              simp [collectValsF] at hv
        | cons c cs =>
            exact absurd hts (by have := tsize_pos c; simp only [fsize]; omega)
  | succ N ih =>
      constructor
      · intro t ht
        cases t with
        | text s0 =>
            constructor
            · intro s hs
              have : s = s0 := by simpa [collectTexts] using hs
              subst this
              rw [render_text_eq]
            · intro v hv
              simp [collectVals] at hv
        | elem tag props children key el =>
            have hsz : fsize children ≤ N := by
              simp only [tsize] at ht
              omega
            obtain ⟨iht, ihv⟩ := ih.2 children hsz
            constructor
            · intro s hs
              have hs2 : s ∈ collectTextsF children := by
                simpa [collectTexts] using hs
              exact render_elem_infix_child tag props children key el (iht s hs2)
            · intro v hv
              rcases collectVals_elem tag props children key el v hv with ⟨k, hkv, hem⟩ | hch
              · exact render_elem_infix_attrs tag props children key el
                  (esc_infix_renderAttrs props k v hkv hem)
              · exact render_elem_infix_child tag props children key el (ihv v hch)
      · intro ts hts
        cases ts with
        | nil =>
            constructor
            · intro s hs
              simp [collectTextsF] at hs
            · intro v hv
              simp [collectValsF] at hv
        | cons c cs =>
            have hsz1 : tsize c ≤ N := by
              simp only [fsize] at hts
              omega
            have hsz2 : fsize cs ≤ N := by
              simp only [fsize] at hts
              omega
            obtain ⟨iht1, ihv1⟩ := ih.1 c hsz1
            obtain ⟨iht2, ihv2⟩ := ih.2 cs hsz2
            rw [renderChildren_cons]
            constructor
            · intro s hs
              rcases List.mem_append.mp (by simpa [collectTextsF] using hs) with hl | hr
              · rw [String.data_append]
                exact infix_right _ (iht1 s hl)
              · rw [String.data_append]
                exact infix_left _ (iht2 s hr)
            · intro v hv
              rcases List.mem_append.mp (by simpa [collectValsF] using hv) with hl | hr
              · rw [String.data_append]
                exact infix_right _ (ihv1 v hl)
              · rw [String.data_append]
                exact infix_left _ (ihv2 v hr)

/-- C1: the string renderer escapes unconditionally.  (1) A text input
is returned exactly HTML-escaped.  (2) Escaped text never contains a
raw `<`, `>`, `"` or apostrophe, and every `&` in it begins one of the
five escape entities.  (3) For any tree whose tag and attribute names
are free of the five special characters, the rendered markup contains
exactly the `<`/`>` of the tag skeleton (two per node), exactly two
quotes per emitted valued attribute, no apostrophe at all, and every
`&` begins an escape entity — so no text child or attribute value can
inject markup, however adversarial.  (4)/(5) Every text child and
every emitted attribute value appears in the output in its
HTML-escaped form. -/
theorem claim_C1 :
    (∀ s : String, render_to_string (.text s) = escapeHtml s) ∧
    (∀ s : String,
      (escapeHtml s).data.count chLt = 0 ∧
      (escapeHtml s).data.count chGt = 0 ∧
      (escapeHtml s).data.count chQuot = 0 ∧
      (escapeHtml s).data.count chApos = 0 ∧
      ampOk (escapeHtml s).data = true) ∧
    (∀ t : VTree, safeTree t = true →
      (render_to_string t).data.count chLt = 2 * elemCount t ∧
      (render_to_string t).data.count chGt = 2 * elemCount t ∧
      (render_to_string t).data.count chQuot = 2 * valuedAttrs t ∧
      (render_to_string t).data.count chApos = 0 ∧
      ampOk (render_to_string t).data = true) ∧
    (∀ (t : VTree) (s : String), s ∈ collectTexts t →
      (escapeHtml s).data <:+: (render_to_string t).data) ∧
    (∀ (t : VTree) (v : PropVal), v ∈ collectVals t →
      (escapeHtml (strOfVal v)).data <:+: (render_to_string t).data) := by
  refine ⟨render_text_eq, ?_, ?_, ?_, ?_⟩
  · intro s
    have hd : (escapeHtml s).data = escapeHtmlL s.data := rfl
    rw [hd]
    exact ⟨escapeHtmlL_count s.data chLt (by simp),
      escapeHtmlL_count s.data chGt (by simp),
      escapeHtmlL_count s.data chQuot (by simp),
      escapeHtmlL_count s.data chApos (by simp),
      ampOk_of_ampGood (ampGood_escapeHtmlL s.data)⟩
  · intro t hsafe
    obtain ⟨h1, h2, h3, h4, h5⟩ := (render_counts (tsize t)).1 t (Nat.le_refl _) hsafe
    exact ⟨h1, h2, h3, h4, ampOk_of_ampGood h5⟩
  · intro t s hs
    exact ((render_infix_fact (tsize t)).1 t (Nat.le_refl _)).1 s hs
  · intro t v hv
    exact ((render_infix_fact (tsize t)).1 t (Nat.le_refl _)).2 v hv

/-- Witness for C1 at the adversarial tree
`div class="x"` containing `<script>alert('&')</script>`. -/
theorem claim_C1_witness :
    safeTree (.elem "div" [("class", .pStr "x")]
      [.text "<script>alert(?&)</script>"] none none) = true ∧
    (render_to_string (.elem "div" [("class", .pStr "x")]
      [.text "<script>alert(?&)</script>"] none none)).data.count chLt =
      2 * elemCount (.elem "div" [("class", .pStr "x")]
      [.text "<script>alert(?&)</script>"] none none) := by
  have h := (claim_C1.2.2.1 (.elem "div" [("class", .pStr "x")]
    [.text "<script>alert(?&)</script>"] none none)) (by decide)
  exact ⟨by decide, h.1⟩

/-- C9: in every rendered attribute map, a `True`-valued attribute
appears as the bare attribute name, a `False`- or `None`-valued
attribute never appears, and an `on_`-prefixed attribute never appears
regardless of its value; dropping a skipped attribute leaves the
rendered markup of the node unchanged. -/
theorem claim_C9 :
    (∀ (pre post : List (String × PropVal)) (k : String) (v : PropVal),
        startsOn k = true →
        attrParts (pre ++ (k, v) :: post) = attrParts (pre ++ post)) ∧
    (∀ (pre post : List (String × PropVal)) (k : String),
        attrParts (pre ++ (k, .pFalse) :: post) = attrParts (pre ++ post)) ∧
    (∀ (pre post : List (String × PropVal)) (k : String),
        attrParts (pre ++ (k, .pNone) :: post) = attrParts (pre ++ post)) ∧
    (∀ (pre post : List (String × PropVal)) (k : String),
        startsOn k = false →
        attrParts (pre ++ (k, .pTrue) :: post) = attrParts pre ++ k :: attrParts post) ∧
    (∀ (tag : String) (pre post : List (String × PropVal)) (k : String) (v : PropVal)
        (children : List VTree) (key : Option String) (el : Option Nat),
        (startsOn k = true ∨ v = .pFalse ∨ v = .pNone) →
        render_to_string (.elem tag (pre ++ (k, v) :: post) children key el) =
          render_to_string (.elem tag (pre ++ post) children key el)) := by
  have skip : ∀ (pre post : List (String × PropVal)) (k : String) (v : PropVal),
      attrPart k v = none →
      attrParts (pre ++ (k, v) :: post) = attrParts (pre ++ post) := by
    intro pre post k v hv
    rw [attrParts_append, attrParts_append, attrParts_cons_skip k v post hv]
  refine ⟨fun pre post k v hk => skip pre post k v (attrPart_onE k v hk),
          fun pre post k => skip pre post k _ (attrPart_false k),
          fun pre post k => skip pre post k _ (attrPart_none k),
          ?_, ?_⟩
  · intro pre post k hk
    rw [attrParts_append]
    simp [attrParts, attrPart_true k hk]
  · intro tag pre post k v children key el h
    have hv : attrPart k v = none := by
      rcases h with h | h | h
      · exact attrPart_onE k v h
      · subst h; exact attrPart_false k
      · subst h; exact attrPart_none k
    simp [render_to_string, renderAttrs, skip pre post k v hv]

/-- Witness for C9 at concrete inputs. -/
theorem claim_C9_witness :
    (startsOn "on_click" = true ∧
      attrParts ([] ++ ("on_click", PropVal.pFn 0 "f") :: []) = attrParts ([] ++ [])) ∧
    (startsOn "disabled" = false ∧
      attrParts ([] ++ ("disabled", PropVal.pTrue) :: []) =
        attrParts [] ++ "disabled" :: attrParts []) :=
  ⟨⟨by decide, claim_C9.1 [] [] "on_click" (.pFn 0 "f") (by decide)⟩,
   ⟨by decide, claim_C9.2.2.2.1 [] [] "disabled" (by decide)⟩⟩

/-- C7: calling the state hook with no active render context raises the
`RuntimeError` with the exact source message; the error propagates (the
result is the error, not a fallback value), the global stays `None`, and
no state slot is read, created or written. -/
theorem claim_C7 {α : Type} (initial : Init α) :
    use_state initial (none : Option (Inst α)) = (.error noCtxMsg, none, false) ∧
    noCtxMsg = "use_state called outside component render" :=
  ⟨rfl, rfl⟩

theorem setValueIter_spec {α : Type} (idx : Nat) (vals : List α) :
    ∀ inst : Inst α, idx < inst.state.length →
      ∃ inst2, setValueIter inst idx vals =
          .ok (inst2, if inst.hasSchedule then vals.length else 0) ∧
        inst2.state.length = inst.state.length ∧
        inst2.hasSchedule = inst.hasSchedule := by
  induction vals with
  | nil =>
      intro inst h
      exact ⟨inst, by simp [setValueIter], rfl, rfl⟩
  | cons v rest ih =>
      intro inst h
      have h1 : idx < ({ inst with state := inst.state.set idx v } : Inst α).state.length := by
        simpa using h
      obtain ⟨inst2, he, hl, hs⟩ := ih { inst with state := inst.state.set idx v } h1
      refine ⟨inst2, ?_, by simpa using hl, hs⟩
      simp only [setValueIter, set_value, h, if_pos]
      rw [he]
      cases hsch : inst.hasSchedule <;> (simp [hsch]; try omega)

/-- C6: a state setter overwrites exactly its slot in place and invokes
the schedule-re-render callback exactly once per call when one is
registered — also when the written value equals the stored one — and
never when none is registered; over any sequence of setter calls the
callback-invocation count equals the setter-call count (when
registered) or zero (when not). -/
theorem claim_C6 {α : Type} (inst : Inst α) (idx : Nat) (new : α)
    (h : idx < inst.state.length) :
    (∃ inst1 cnt, set_value inst idx new = .ok (inst1, cnt) ∧
        inst1.state[idx]? = some new ∧
        (∀ j, j ≠ idx → inst1.state[j]? = inst.state[j]?) ∧
        inst1.state.length = inst.state.length ∧
        inst1.hookIndex = inst.hookIndex ∧
        inst1.hasSchedule = inst.hasSchedule ∧
        cnt = (if inst.hasSchedule then 1 else 0)) ∧
    (∀ vals : List α, ∃ inst2, setValueIter inst idx vals =
        .ok (inst2, if inst.hasSchedule then vals.length else 0)) := by
  constructor
  · refine ⟨{ inst with state := inst.state.set idx new },
      if inst.hasSchedule then 1 else 0, by simp [set_value, h], ?_, ?_, by simp, rfl, rfl, rfl⟩
    · simp [List.getElem?_set, h]
    · intro j hj
      simp [List.getElem?_set, Ne.symm hj]
  · intro vals
    obtain ⟨inst2, he, _, _⟩ := setValueIter_spec idx vals inst h
    exact ⟨inst2, he⟩

/-- Witness for C6: a slot holding `5` is set to `5` three times with a
registered callback; the callback fires three times. -/
theorem claim_C6_witness :
    (0 < (({ state := [5], hookIndex := 0, hasSchedule := true } : Inst Nat)).state.length) ∧
    (∃ inst2, setValueIter ({ state := [5], hookIndex := 0, hasSchedule := true } : Inst Nat)
        0 [5, 5, 5] = .ok (inst2, 3)) := by
  have h := claim_C6 ({ state := [5], hookIndex := 0, hasSchedule := true } : Inst Nat) 0 5
    (by decide)
  refine ⟨by decide, ?_⟩
  obtain ⟨inst2, he⟩ := h.2 [5, 5, 5]
  exact ⟨inst2, by simpa using he⟩

theorem use_state_ok_old {α : Type} (initial : Init α) (inst : Inst α)
    (h : inst.hookIndex < inst.state.length) :
    use_state initial (some inst) =
      (.ok (inst.state.get ⟨inst.hookIndex, h⟩),
       some { inst with hookIndex := inst.hookIndex + 1 }, false) := by
  have hc : ¬ (inst.state.length ≤ inst.hookIndex) := by omega
  simp [use_state, useStateI, hc, h]

theorem use_state_ok_new {α : Type} (initial : Init α) (inst : Inst α)
    (h : inst.hookIndex = inst.state.length) :
    ∃ v, use_state initial (some inst) =
      (.ok v,
       some { inst with state := inst.state ++ [evalInit initial],
                        hookIndex := inst.hookIndex + 1 }, true) := by
  have hc : inst.state.length ≤ inst.hookIndex := by omega
  have hlt1 : inst.hookIndex < inst.state.length + 1 := by omega
  have hlt2 : inst.hookIndex < (inst.state ++ [evalInit initial]).length := by
    simp only [List.length_append, List.length_cons, List.length_nil]
    omega
  refine ⟨(inst.state ++ [evalInit initial]).get ⟨inst.hookIndex, hlt2⟩, ?_⟩
  simp [use_state, useStateI, hc, hlt1]

theorem runBody_ok {α : Type} (hooks : List (List α → Init α)) :
    ∀ (vals : List α) (inst : Inst α), inst.hookIndex ≤ inst.state.length →
      ∃ vals2 inst2 log, runBody hooks vals (some inst) = (.ok vals2, some inst2, log) ∧
        inst2.hookIndex = inst.hookIndex + hooks.length ∧
        inst2.hasSchedule = inst.hasSchedule ∧
        inst2.hookIndex ≤ inst2.state.length := by
  induction hooks with
  | nil =>
      intro vals inst h
      exact ⟨vals, inst, [], by simp [runBody], by simp, rfl, h⟩
  | cons hk rest ih =>
      intro vals inst h
      rcases Nat.lt_or_ge inst.hookIndex inst.state.length with hlt | hge
      · have hu := use_state_ok_old (hk vals) inst hlt
        have h1 : ({ inst with hookIndex := inst.hookIndex + 1 } : Inst α).hookIndex ≤
            ({ inst with hookIndex := inst.hookIndex + 1 } : Inst α).state.length := by
          show inst.hookIndex + 1 ≤ inst.state.length
          omega
        obtain ⟨vals2, inst2, log, hr, hidx2, hsch2, hle2⟩ :=
          ih (vals ++ [inst.state.get ⟨inst.hookIndex, hlt⟩]) _ h1
        refine ⟨vals2, inst2, log, ?_, ?_, hsch2, hle2⟩
        · simp only [runBody, hu, hr]
          simp
        · rw [hidx2]
          simp only [List.length_cons]
          show inst.hookIndex + 1 + rest.length = inst.hookIndex + (rest.length + 1)
          omega
      · have heq : inst.hookIndex = inst.state.length := by omega
        obtain ⟨v, hu⟩ := use_state_ok_new (hk vals) inst heq
        have h1 : ({ inst with state := inst.state ++ [evalInit (hk vals)],
                               hookIndex := inst.hookIndex + 1 } : Inst α).hookIndex ≤
            ({ inst with state := inst.state ++ [evalInit (hk vals)],
                         hookIndex := inst.hookIndex + 1 } : Inst α).state.length := by
          show inst.hookIndex + 1 ≤ (inst.state ++ [evalInit (hk vals)]).length
          simp only [List.length_append, List.length_cons, List.length_nil]
          omega
        obtain ⟨vals2, inst2, log, hr, hidx2, hsch2, hle2⟩ := ih (vals ++ [v]) _ h1
        refine ⟨vals2, inst2, inst.hookIndex :: log, ?_, ?_, hsch2, hle2⟩
        · simp only [runBody, hu, hr]
          simp
        · rw [hidx2]
          simp only [List.length_cons]
          show inst.hookIndex + 1 + rest.length = inst.hookIndex + (rest.length + 1)
          omega

theorem runBody_grow {α : Type} (hooks : List (List α → Init α)) :
    ∀ (vals : List α) (inst : Inst α), inst.hookIndex = inst.state.length →
      ∃ vals2 inst2, runBody hooks vals (some inst) =
          (.ok vals2, some inst2, List.range' inst.state.length hooks.length) ∧
        inst2.hookIndex = inst.state.length + hooks.length ∧
        inst2.state.length = inst.state.length + hooks.length ∧
        inst2.hasSchedule = inst.hasSchedule := by
  induction hooks with
  | nil =>
      intro vals inst h
      refine ⟨vals, inst, by simp [runBody], ?_, ?_, rfl⟩
      · simp only [List.length_nil]
        omega
      · simp only [List.length_nil]
        omega
  | cons hk rest ih =>
      intro vals inst h
      obtain ⟨v, hu⟩ := use_state_ok_new (hk vals) inst h
      set inst1 : Inst α :=
        { inst with state := inst.state ++ [evalInit (hk vals)],
                    hookIndex := inst.hookIndex + 1 } with hinst1
      have hlen1 : inst1.state.length = inst.state.length + 1 := by
        rw [hinst1]
        show (inst.state ++ [evalInit (hk vals)]).length = inst.state.length + 1
        simp
      have h1 : inst1.hookIndex = inst1.state.length := by
        rw [hlen1]
        show inst.hookIndex + 1 = inst.state.length + 1
        omega
      obtain ⟨vals2, inst2, hr, hidx2, hlen2, hsch2⟩ := ih (vals ++ [v]) inst1 h1
      refine ⟨vals2, inst2, ?_, ?_, ?_, by rw [hsch2]⟩
      · have hrng : List.range' inst.state.length (hk :: rest).length =
            inst.hookIndex :: List.range' inst1.state.length rest.length := by
          rw [List.length_cons, List.range'_succ, hlen1, h]
        rw [hrng]
        simp only [runBody, hu, hr]
        simp
      · rw [hidx2, hlen1]
        simp only [List.length_cons]
        omega
      · rw [hlen2, hlen1]
        simp only [List.length_cons]
        omega

theorem runBody_stable {α : Type} (hooks : List (List α → Init α)) :
    ∀ (vals : List α) (inst : Inst α),
      inst.hookIndex + hooks.length ≤ inst.state.length →
      ∃ vals2, runBody hooks vals (some inst) =
          (.ok vals2, some { inst with hookIndex := inst.hookIndex + hooks.length }, []) := by
  induction hooks with
  | nil =>
      intro vals inst h
      exact ⟨vals, by simp [runBody]⟩
  | cons hk rest ih =>
      intro vals inst h
      have hlc : (hk :: rest).length = rest.length + 1 := List.length_cons hk rest
      have hlt : inst.hookIndex < inst.state.length := by
        rw [hlc] at h
        omega
      have hu := use_state_ok_old (hk vals) inst hlt
      have h1 : ({ inst with hookIndex := inst.hookIndex + 1 } : Inst α).hookIndex
          + rest.length ≤
          ({ inst with hookIndex := inst.hookIndex + 1 } : Inst α).state.length := by
        show inst.hookIndex + 1 + rest.length ≤ inst.state.length
        rw [hlc] at h
        omega
      obtain ⟨vals2, hr⟩ := ih (vals ++ [inst.state.get ⟨inst.hookIndex, hlt⟩]) _ h1
      refine ⟨vals2, ?_⟩
      simp only [runBody, hu, hr]
      have harith : inst.hookIndex + 1 + rest.length =
          inst.hookIndex + (hk :: rest).length := by
        rw [hlc]
        omega
      rw [harith]
      simp

/-- The instance state and log a `render_component` call leaves behind
do not depend on the outcome of the component body. -/
theorem render_component_instLog {π α : Type} (componentFn : π → Comp α) (props : π)
    (inst : Inst α) (g0 : Option (Inst α)) (vals2 : List α) (inst2 : Inst α)
    (log : List Nat)
    (hrun : runBody (componentFn props).hooks [] (some { inst with hookIndex := 0 }) =
      (.ok vals2, some inst2, log)) :
    (render_component componentFn props inst g0).inst = inst2 ∧
    (render_component componentFn props inst g0).log = log := by
  simp only [render_component]
  rw [hrun]
  cases (componentFn props).outcome <;> simp

/-- C8: `render_component` resets the instance's hook cursor (the
incoming cursor value is irrelevant), runs the body against the
instance, returns exactly the node the component produced from its hook
values, and leaves the active-instance pointer cleared, so a subsequent
hook call outside a render fails with the context error. -/
theorem claim_C8 {π α : Type} (componentFn : π → Comp α) (props : π) (inst : Inst α)
    (g0 : Option (Inst α)) (f : List α → VTree)
    (hout : (componentFn props).outcome = .ret f) :
    (∀ (j : Nat) (g0' : Option (Inst α)),
        render_component componentFn props { inst with hookIndex := j } g0' =
          render_component componentFn props inst g0) ∧
    (render_component componentFn props inst g0).global = none ∧
    (∀ initial : Init α,
        (use_state initial (render_component componentFn props inst g0).global).1 =
          .error noCtxMsg) ∧
    (∃ vals, (runBody (componentFn props).hooks []
        (some { inst with hookIndex := 0 })).1 = .ok vals ∧
      (render_component componentFn props inst g0).result = .ok (f vals)) := by
  obtain ⟨vals2, inst2, log, hrun, _, _, _⟩ :=
    runBody_ok (componentFn props).hooks [] { inst with hookIndex := 0 } (by simp)
  have hrc : render_component componentFn props inst g0 =
      ⟨.ok (f vals2), inst2, none, log⟩ := by
    simp only [render_component]
    rw [hrun, hout]
    simp
  exact ⟨fun j g0' => rfl, by rw [hrc], fun initial => by rw [hrc]; rfl,
    vals2, by rw [hrun], by rw [hrc]⟩

/-- Witness for C8 at a concrete one-hook component. -/
theorem claim_C8_witness :
    ((fun _ : Unit => (Comp.mk [fun _ => .value 0] (.ret (fun _ => .text "x")) : Comp Nat)) ()).outcome =
      .ret (fun _ => .text "x") ∧
    (render_component
        (fun _ : Unit => (Comp.mk [fun _ => .value 0] (.ret (fun _ => .text "x")) : Comp Nat)) ()
        { state := [], hookIndex := 0, hasSchedule := false } none).global = none := by
  have h := claim_C8
    (fun _ : Unit => (Comp.mk [fun _ => .value 0] (.ret (fun _ => .text "x")) : Comp Nat)) ()
    { state := [], hookIndex := 0, hasSchedule := false } none (fun _ => .text "x") rfl
  exact ⟨rfl, h.2.1⟩

/-- C10: if the component body raises, `render_component` propagates
the exception but — there being no `try/finally` — leaves the
module-level active-instance pointer set to the instance, so a
subsequent `use_state` call outside any render succeeds against that
stale instance instead of raising the context error. -/
theorem claim_C10 {π α : Type} (componentFn : π → Comp α) (props : π) (inst : Inst α)
    (g0 : Option (Inst α)) (hout : (componentFn props).outcome = .raiseExc) :
    (∃ e, (render_component componentFn props inst g0).result = .error e) ∧
    (render_component componentFn props inst g0).global =
      some (render_component componentFn props inst g0).inst ∧
    (∀ initial : Init α, ∃ v g1 cr,
        use_state initial (render_component componentFn props inst g0).global =
          (.ok v, g1, cr)) := by
  obtain ⟨vals2, inst2, log, hrun, _, _, hle⟩ :=
    runBody_ok (componentFn props).hooks [] { inst with hookIndex := 0 } (by simp)
  have hrc : render_component componentFn props inst g0 =
      ⟨.error "component raised", inst2, some inst2, log⟩ := by
    simp only [render_component]
    rw [hrun, hout]
    simp
  refine ⟨⟨"component raised", by rw [hrc]⟩, by rw [hrc], fun initial => ?_⟩
  rcases Nat.lt_or_ge inst2.hookIndex inst2.state.length with hlt | hge
  · exact ⟨_, _, _, by rw [hrc]; exact use_state_ok_old initial inst2 hlt⟩
  · have heq : inst2.hookIndex = inst2.state.length := by omega
    obtain ⟨v, hu⟩ := use_state_ok_new initial inst2 heq
    exact ⟨v, _, _, by rw [hrc]; exact hu⟩

/-- Witness for C10: a component that raises after one hook call. -/
theorem claim_C10_witness :
    ((fun _ : Unit => (Comp.mk [fun _ => .value 7] .raiseExc : Comp Nat)) ()).outcome = .raiseExc ∧
    (render_component
        (fun _ : Unit => (Comp.mk [fun _ => .value 7] .raiseExc : Comp Nat)) ()
        { state := [], hookIndex := 0, hasSchedule := false } none).global =
      some (render_component
        (fun _ : Unit => (Comp.mk [fun _ => .value 7] .raiseExc : Comp Nat)) ()
        { state := [], hookIndex := 0, hasSchedule := false } none).inst := by
  have h := claim_C10
    (fun _ : Unit => (Comp.mk [fun _ => .value 7] .raiseExc : Comp Nat)) ()
    { state := [], hookIndex := 0, hasSchedule := false } none rfl
  exact ⟨rfl, h.2.1⟩

theorem renderN_stable {π α : Type} (componentFn : π → Comp α) (props : π) :
    ∀ (m : Nat) (inst : Inst α), (componentFn props).hooks.length ≤ inst.state.length →
      (renderN componentFn props inst m).1.state = inst.state ∧
      (renderN componentFn props inst m).2 = List.replicate m [] := by
  intro m
  induction m with
  | zero => intro inst h; exact ⟨rfl, rfl⟩
  | succ m ih =>
      intro inst h
      obtain ⟨vals2, hr⟩ := runBody_stable (componentFn props).hooks []
        { inst with hookIndex := 0 } (by simpa using h)
      obtain ⟨hinst, hlog⟩ := render_component_instLog componentFn props inst none vals2
        { inst with hookIndex := 0 + (componentFn props).hooks.length } [] hr
      have hlen : (componentFn props).hooks.length ≤
          (render_component componentFn props inst none).inst.state.length := by
        rw [hinst]; simpa using h
      obtain ⟨ihs, ihl⟩ := ih (render_component componentFn props inst none).inst hlen
      constructor
      · show (renderN componentFn props
            (render_component componentFn props inst none).inst m).1.state = inst.state
        rw [ihs, hinst]
      · show (render_component componentFn props inst none).log ::
            (renderN componentFn props
              (render_component componentFn props inst none).inst m).2 =
          List.replicate (m + 1) []
        rw [ihl, hlog, List.replicate_succ]

/-- C2: for a component calling the state hook exactly `k` times per
render, after `m ≥ 1` renders of a fresh instance the state-slot list
has length exactly `k`; the initializers are evaluated exactly once
each, in slot order, on the first render, and never re-run afterwards
(later renders log no evaluation and leave the state untouched). -/
theorem claim_C2 {π α : Type} (componentFn : π → Comp α) (props : π) (b : Bool)
    (j m : Nat) (hm : 1 ≤ m) :
    (renderN componentFn props { state := [], hookIndex := j, hasSchedule := b }
        m).1.state.length = (componentFn props).hooks.length ∧
    (renderN componentFn props { state := [], hookIndex := j, hasSchedule := b } m).2 =
      List.range' 0 (componentFn props).hooks.length :: List.replicate (m - 1) [] ∧
    (renderN componentFn props { state := [], hookIndex := j, hasSchedule := b }
        m).1.state =
      (renderN componentFn props { state := [], hookIndex := j, hasSchedule := b }
        1).1.state := by
  obtain ⟨m', rfl⟩ : ∃ m', m = m' + 1 := ⟨m - 1, by omega⟩
  set inst : Inst α := { state := [], hookIndex := j, hasSchedule := b }
  obtain ⟨vals2, inst2, hr, hidx2, hlen2, _⟩ :=
    runBody_grow (componentFn props).hooks [] { inst with hookIndex := 0 } rfl
  obtain ⟨hinst, hlog⟩ :=
    render_component_instLog componentFn props inst none vals2 inst2 _ hr
  have hlen : (componentFn props).hooks.length ≤
      (render_component componentFn props inst none).inst.state.length := by
    rw [hinst]
    simp only [Inst.state] at hlen2
    omega
  obtain ⟨ihs, ihl⟩ := renderN_stable componentFn props m'
    (render_component componentFn props inst none).inst hlen
  refine ⟨?_, ?_, ?_⟩
  · show (renderN componentFn props
        (render_component componentFn props inst none).inst m').1.state.length = _
    rw [ihs, hinst]
    simpa using hlen2
  · show (render_component componentFn props inst none).log ::
        (renderN componentFn props
          (render_component componentFn props inst none).inst m').2 = _
    rw [ihl, hlog]
    simp
  · show (renderN componentFn props
          (render_component componentFn props inst none).inst m').1.state =
        (renderN componentFn props
          (render_component componentFn props inst none).inst 0).1.state
    rw [ihs]
    rfl

/-- Witness for C2: a two-hook component rendered three times keeps
exactly two slots. -/
theorem claim_C2_witness :
    1 ≤ 3 ∧
    (renderN (fun _ : Unit => (Comp.mk [fun _ => .value 4, fun _ => .value 5] (.ret (fun _ => .text "x")) : Comp Nat)) ()
      { state := [], hookIndex := 0, hasSchedule := false } 3).1.state.length = 2 := by
  have h := claim_C2 (fun _ : Unit => (Comp.mk [fun _ => .value 4, fun _ => .value 5] (.ret (fun _ => .text "x")) : Comp Nat)) () false 0 3 (by omega)
  exact ⟨by omega, h.1⟩

/-- C4: patching two `VNode`s with the same tag copies the old host
reference onto the new node (reference-identical, no new host
allocation for that node), and the keyed-vs-positional choice inspects
only whether the first new child is a `VNode` with non-`None` key. -/
theorem claim_C4 (parent : Parent) (t : String) (po pn : List (String × PropVal))
    (co cn : List VTree) (ko kn : Option String) (eo en : Option Nat) (i n : Nat) :
    (∃ cn' n1 ops,
        patch parent (some (.elem t po co ko eo)) (some (.elem t pn cn kn en)) i n =
          (some (.elem t pn cn' kn eo), n1, ops)) ∧
    has_keys [] = false ∧
    (∀ (s : String) (r : List VTree), has_keys (.text s :: r) = false) ∧
    (∀ (tag : String) (props : List (String × PropVal)) (children : List VTree)
        (key : Option String) (el : Option Nat) (r : List VTree),
        has_keys (.elem tag props children key el :: r) = key.isSome) := by
  refine ⟨?_, rfl, fun s r => rfl, fun tag props children key el r => rfl⟩
  by_cases hk : has_keys cn
  · rcases hpk : patch_keyed_children eo co cn n with ⟨cn', n1, ops⟩
    exact ⟨cn', n1, patch_props eo po pn ++ ops, by simp [patch, hk, hpk]⟩
  · rcases hpc : patch_children eo co cn n with ⟨cn', n1, ops⟩
    exact ⟨cn', n1, patch_props eo po pn ++ ops, by simp [patch, hk, hpc]⟩

/-! ### The client patcher: shape lemmas and `patch_children` (C5) -/

theorem patch_same_tag (parent : Parent) (t : String) (po pn : List (String × PropVal))
    (co cn : List VTree) (ko kn : Option String) (eo en : Option Nat) (i n : Nat) :
    ∃ cn' n1 ops,
      patch parent (some (.elem t po co ko eo)) (some (.elem t pn cn kn en)) i n =
        (some (.elem t pn cn' kn eo), n1, ops) := by
  by_cases hk : has_keys cn
  · rcases hpk : patch_keyed_children eo co cn n with ⟨cn', n1, ops⟩
    exact ⟨cn', n1, patch_props eo po pn ++ ops, by simp [patch, hk, hpk]⟩
  · rcases hpc : patch_children eo co cn n with ⟨cn', n1, ops⟩
    exact ⟨cn', n1, patch_props eo po pn ++ ops, by simp [patch, hk, hpc]⟩

theorem patch_some (parent : Parent) (ov : Option VTree) (nv : VTree) (i n : Nat) :
    ∃ t' n' ops, patch parent ov (some nv) i n = (some t', n', ops) := by
  match ov, nv with
  | none, nv =>
      rcases hm : mount parent nv n with ⟨t', n', ops⟩
      exact ⟨t', n', ops, by simp [patch, hm]⟩
  | some (.text so), .text sn =>
      exact ⟨.text sn, n, if so = sn then [] else [.setTextAt parent i sn], by simp [patch]⟩
  | some (.text so), .elem tn pn cn kn en =>
      rcases hm : mount parent (.elem tn pn cn kn en) n with ⟨t', n', ops⟩
      exact ⟨t', n', remove_node parent (.text so) i ++ ops, by simp [patch, hm]⟩
  | some (.elem to_ po co ko eo), .text sn =>
      rcases hm : mount parent (.text sn) n with ⟨t', n', ops⟩
      exact ⟨t', n', remove_node parent (.elem to_ po co ko eo) i ++ ops, by simp [patch, hm]⟩
  | some (.elem to_ po co ko eo), .elem tn pn cn kn en =>
      by_cases htag : to_ = tn
      · subst htag
        obtain ⟨cn', n1, ops, heq⟩ := patch_same_tag parent to_ po pn co cn ko kn eo en i n
        exact ⟨_, n1, ops, heq⟩
      · rcases hm : mount parent (.elem tn pn cn kn en) n with ⟨t', n', ops⟩
        exact ⟨t', n', remove_node parent (.elem to_ po co ko eo) i ++ ops,
          by simp [patch, htag, hm]⟩

theorem patchCommon_spec :
    ∀ (olds news : List VTree) (parent : Parent) (i n : Nat)
      (patched : List VTree) (n' : Nat) (ops : List Op),
      patchCommon parent olds news i n = (patched, n', ops) →
      List.Forall₂ (fun (pr : VTree × VTree) p =>
        ∀ t po co ko eo pn cn kn en,
          pr.1 = VTree.elem t po co ko eo → pr.2 = VTree.elem t pn cn kn en →
          ∃ cn', p = VTree.elem t pn cn' kn eo)
        (olds.zip news) patched
  | [], news, parent, i, n, patched, n', ops, h => by
      simp only [patchCommon, Prod.mk.injEq] at h
      obtain ⟨h1, _, _⟩ := h
      subst h1
      simp
  | o :: os, [], parent, i, n, patched, n', ops, h => by
      simp only [patchCommon, Prod.mk.injEq] at h
      obtain ⟨h1, _, _⟩ := h
      subst h1
      simp
  | o :: os, nw :: ns, parent, i, n, patched, n', ops, h => by
      rcases hp : patch parent (some o) (some nw) i n with ⟨t?, n1, ops1⟩
      rcases hrest : patchCommon parent os ns (i + 1) n1 with ⟨rest, n2, ops2⟩
      simp only [patchCommon, hp, hrest, Prod.mk.injEq] at h
      obtain ⟨hpt, hn, hops⟩ := h
      subst hpt
      refine List.Forall₂.cons ?_ (patchCommon_spec os ns parent (i + 1) n1 rest n2 ops2 hrest)
      intro t po co ko eo pn cn kn en ho hnw
      subst ho
      subst hnw
      obtain ⟨cn', nx, opsx, heq⟩ := patch_same_tag parent t po pn co cn ko kn eo en i n
      rw [heq] at hp
      obtain ⟨hp1, _, _⟩ := Prod.mk.injEq .. ▸ hp
      exact ⟨cn', by rw [← hp1]; rfl⟩

theorem removeExtras_mem_el :
    ∀ (extras : List VTree) (parent : Parent) (idx : Nat) (co : VTree) (e : Nat),
      co ∈ extras → elOf co = some e →
      Op.removeEl e ∈ removeExtras parent extras idx
  | [], _, _, _, _, hmem, _ => by simp at hmem
  | c :: cs, parent, idx, co, e, hmem, hel => by
      rcases List.mem_cons.mp hmem with rfl | h2
      · show Op.removeEl e ∈ remove_node parent co idx ++ removeExtras parent cs idx
        cases co with
        | text s => simp [elOf] at hel
        | elem tag props ch key el =>
            simp only [elOf] at hel
            subst hel
            simp [remove_node]
      · show Op.removeEl e ∈ remove_node parent c idx ++ removeExtras parent cs idx
        exact List.mem_append.mpr (Or.inr (removeExtras_mem_el cs parent idx co e h2 hel))

theorem removeExtras_mem_text :
    ∀ (extras : List VTree) (parent : Parent) (idx : Nat) (s : String),
      VTree.text s ∈ extras →
      Op.removeTextAt parent idx ∈ removeExtras parent extras idx
  | [], _, _, _, hmem => by simp at hmem
  | c :: cs, parent, idx, s, hmem => by
      rcases List.mem_cons.mp hmem with heq | h2
      · show Op.removeTextAt parent idx ∈ remove_node parent c idx ++ removeExtras parent cs idx
        rw [← heq]
        simp [remove_node]
      · show Op.removeTextAt parent idx ∈ remove_node parent c idx ++ removeExtras parent cs idx
        exact List.mem_append.mpr (Or.inr (removeExtras_mem_text cs parent idx s h2))

/-- C5: `patch_children` patches the common indices pairwise (reusing
the host of every same-tag pair at its index), then — after all
common-index patches are in the trace — removes each extra old child,
referencing the original node (the populated `_el` for element
children; the constant index `new_len` for text children), then mounts
each extra new child in order at the end of the trace. -/
theorem claim_C5 (parent : Parent) (olds news : List VTree) (n : Nat)
    (patched' : List VTree) (n' : Nat) (ops : List Op)
    (h : patch_children parent olds news n = (patched', n', ops)) :
    ∃ commonOps n1 patched mounted mountOps,
      patchCommon parent olds news 0 n = (patched, n1, commonOps) ∧
      mountList parent (news.drop olds.length) n1 = (mounted, n', mountOps) ∧
      patched' = patched ++ mounted ∧
      ops = commonOps ++
        removeExtras parent (olds.drop news.length) news.length ++ mountOps ∧
      (∀ co ∈ olds.drop news.length, ∀ e, elOf co = some e →
        Op.removeEl e ∈ removeExtras parent (olds.drop news.length) news.length) ∧
      (∀ s, VTree.text s ∈ olds.drop news.length →
        Op.removeTextAt parent news.length ∈
          removeExtras parent (olds.drop news.length) news.length) ∧
      List.Forall₂ (fun (pr : VTree × VTree) p =>
        ∀ t po co ko eo pn cn kn en,
          pr.1 = VTree.elem t po co ko eo → pr.2 = VTree.elem t pn cn kn en →
          ∃ cn', p = VTree.elem t pn cn' kn eo)
        (olds.zip news) patched := by
  rcases hc : patchCommon parent olds news 0 n with ⟨patched, n1, commonOps⟩
  rcases hm : mountList parent (news.drop olds.length) n1 with ⟨mounted, n2, mountOps⟩
  simp only [patch_children, hc, hm, Prod.mk.injEq] at h
  obtain ⟨h1, h2, h3⟩ := h
  subst h1
  subst h2
  subst h3
  refine ⟨commonOps, n1, patched, mounted, mountOps, ?A, ?B, ?C, ?D, ?E, ?F, ?G⟩
  case A => rfl
  case B => exact hm
  case C => rfl
  case D => rfl
  case E => exact fun co hco e hel => removeExtras_mem_el _ parent news.length co e hco hel
  case F => exact fun s hs => removeExtras_mem_text _ parent news.length s hs
  case G => exact patchCommon_spec olds news parent 0 n patched n1 commonOps hc

/-- Witness for C5: `[p(el 1), p(el 2), "hi"]` patched against `[p]`. -/
theorem claim_C5_witness :
    patch_children (some 0)
        [.elem "p" [] [] none (some 1), .elem "p" [] [] none (some 2), .text "hi"]
        [.elem "p" [] [] none none] 10 =
      ((patch_children (some 0)
        [.elem "p" [] [] none (some 1), .elem "p" [] [] none (some 2), .text "hi"]
        [.elem "p" [] [] none none] 10).1,
       (patch_children (some 0)
        [.elem "p" [] [] none (some 1), .elem "p" [] [] none (some 2), .text "hi"]
        [.elem "p" [] [] none none] 10).2.1,
       (patch_children (some 0)
        [.elem "p" [] [] none (some 1), .elem "p" [] [] none (some 2), .text "hi"]
        [.elem "p" [] [] none none] 10).2.2) ∧
    (∃ commonOps n1 patched mounted mountOps,
      patchCommon (some 0)
          [.elem "p" [] [] none (some 1), .elem "p" [] [] none (some 2), .text "hi"]
          [.elem "p" [] [] none none] 0 10 = (patched, n1, commonOps) ∧
      mountList (some 0)
          (([.elem "p" [] [] none none] : List VTree).drop 3) n1 =
        (mounted,
         (patch_children (some 0)
           [.elem "p" [] [] none (some 1), .elem "p" [] [] none (some 2), .text "hi"]
           [.elem "p" [] [] none none] 10).2.1, mountOps) ∧
      (patch_children (some 0)
          [.elem "p" [] [] none (some 1), .elem "p" [] [] none (some 2), .text "hi"]
          [.elem "p" [] [] none none] 10).1 = patched ++ mounted ∧
      (patch_children (some 0)
          [.elem "p" [] [] none (some 1), .elem "p" [] [] none (some 2), .text "hi"]
          [.elem "p" [] [] none none] 10).2.2 = commonOps ++
        removeExtras (some 0)
          (([.elem "p" [] [] none (some 1), .elem "p" [] [] none (some 2),
             .text "hi"] : List VTree).drop 1) 1 ++ mountOps ∧
      (∀ co ∈ ([.elem "p" [] [] none (some 1), .elem "p" [] [] none (some 2),
          .text "hi"] : List VTree).drop 1, ∀ e, elOf co = some e →
        Op.removeEl e ∈ removeExtras (some 0)
          (([.elem "p" [] [] none (some 1), .elem "p" [] [] none (some 2),
             .text "hi"] : List VTree).drop 1) 1) ∧
      (∀ s, VTree.text s ∈ ([.elem "p" [] [] none (some 1),
          .elem "p" [] [] none (some 2), .text "hi"] : List VTree).drop 1 →
        Op.removeTextAt (some 0) 1 ∈ removeExtras (some 0)
          (([.elem "p" [] [] none (some 1), .elem "p" [] [] none (some 2),
             .text "hi"] : List VTree).drop 1) 1) ∧
      List.Forall₂ (fun (pr : VTree × VTree) p =>
        ∀ t po co ko eo pn cn kn en,
          pr.1 = VTree.elem t po co ko eo → pr.2 = VTree.elem t pn cn kn en →
          ∃ cn', p = VTree.elem t pn cn' kn eo)
        (([.elem "p" [] [] none (some 1), .elem "p" [] [] none (some 2),
           .text "hi"] : List VTree).zip [.elem "p" [] [] none none]) patched) := by
  constructor
  · rfl
  · exact claim_C5 (some 0)
      [.elem "p" [] [] none (some 1), .elem "p" [] [] none (some 2), .text "hi"]
      [.elem "p" [] [] none none] 10 _ _ _ rfl

/-! ### Keyed reconciliation (C3) -/

/-- Counterexample to C3 as stated: the keys of the single old child
and the single new child agree (`"a"` occurs in both lists), yet
because the tag changed (`div` → `span`) the old host `5` is removed,
a fresh host `10` is created, and the patched child's host reference is
`10`, not the old `5` — the matched child is removed and remounted and
a removal occurs although no key was dropped. -/
theorem claim_C3_cex :
    truthyKey (VTree.elem "div" [] [] (some "a") (some 5)) =
      truthyKey (VTree.elem "span" [] [] (some "a") none) ∧
    Op.removeEl 5 ∈ (patch_keyed_children (some 0)
        [.elem "div" [] [] (some "a") (some 5)]
        [.elem "span" [] [] (some "a") none] 10).2.2 ∧
    Op.createEl 10 "span" ∈ (patch_keyed_children (some 0)
        [.elem "div" [] [] (some "a") (some 5)]
        [.elem "span" [] [] (some "a") none] 10).2.2 ∧
    ((patch_keyed_children (some 0)
        [.elem "div" [] [] (some "a") (some 5)]
        [.elem "span" [] [] (some "a") none] 10).1).map elOf = [some 10] ∧
    ¬ ((patch_keyed_children (some 0)
        [.elem "div" [] [] (some "a") (some 5)]
        [.elem "span" [] [] (some "a") none] 10).1).map elOf = [some 5] := by
  refine ⟨rfl, ?_, ?_, ?_, ?_⟩ <;>
    simp [patch_keyed_children, build_keyed, buildKeyedAux, dictInsert, truthyKey,
      keyedPass, dictGet, patch, mount, mountList, mountProps, remove_node, move_node,
      keyedRemovals, elOf, List.find?]

theorem removeIds_append (a b : List Op) :
    removeIds (a ++ b) = removeIds a ++ removeIds b := by
  simp [removeIds, List.filterMap_append]

theorem createIds_append (a b : List Op) :
    createIds (a ++ b) = createIds a ++ createIds b := by
  simp [createIds, List.filterMap_append]

theorem clean_of_propActs (ops : List Op)
    (h : ∀ op ∈ ops, ∃ t a, op = Op.propAct t a) :
    removeIds ops = [] ∧ createIds ops = [] := by
  induction ops with
  | nil => exact ⟨rfl, rfl⟩
  | cons op rest ih =>
      obtain ⟨t, a, rfl⟩ := h op (List.mem_cons_self op rest)
      have hr := ih (fun op' h' => h op' (List.mem_cons_of_mem _ h'))
      exact ⟨by simpa [removeIds] using hr.1, by simpa [createIds] using hr.2⟩

theorem mountProps_propActs (el : Nat) :
    ∀ (props : List (String × PropVal)) (op : Op), op ∈ mountProps el props →
      ∃ t a, op = Op.propAct t a
  | [], op, h => by simp [mountProps] at h
  | (k, v) :: rest, op, h => by
      simp only [mountProps] at h
      rcases List.mem_append.mp h with h1 | h2
      · rcases hs : styleDict v with _ | kvs <;>
          simp only [hs] at h1 <;>
          split_ifs at h1 <;>
          first
            | exact absurd h1 (List.not_mem_nil op)
            | (rw [List.mem_singleton] at h1
               exact ⟨_, _, h1⟩)
            | (obtain ⟨sv, hsv1, hsv⟩ := List.mem_map.mp h1
               exact ⟨_, _, hsv.symm⟩)
      · exact mountProps_propActs el rest op h2

theorem patchStyle_propActs (el : Option Nat) (oldStyle newKvs : List (String × String))
    (op : Op) (h : op ∈ patchStyle el oldStyle newKvs) :
    ∃ t a, op = Op.propAct t a := by
  unfold patchStyle at h
  rcases List.mem_append.mp h with h1 | h2
  · obtain ⟨sv, _, hsv⟩ := List.mem_filterMap.mp h1
    split_ifs at hsv
    obtain ⟨rfl⟩ := hsv
    exact ⟨_, _, rfl⟩
  · obtain ⟨sv, _, hsv⟩ := List.mem_map.mp h2
    exact ⟨_, _, hsv.symm⟩

theorem patchPropsRemove_propActs (el : Option Nat) :
    ∀ (old new : List (String × PropVal)) (op : Op),
      op ∈ patchPropsRemove el old new → ∃ t a, op = Op.propAct t a
  | [], new, op, h => by simp [patchPropsRemove] at h
  | (k, v) :: rest, new, op, h => by
      simp only [patchPropsRemove] at h
      rcases List.mem_append.mp h with h1 | h2
      · rcases hs : styleDict v with _ | kvs <;>
          simp only [hs] at h1 <;>
          split_ifs at h1 <;>
          first
            | exact absurd h1 (List.not_mem_nil op)
            | (rw [List.mem_singleton] at h1
               exact ⟨_, _, h1⟩)
            | (obtain ⟨sv, hsv1, hsv⟩ := List.mem_map.mp h1
               exact ⟨_, _, hsv.symm⟩)
      · exact patchPropsRemove_propActs el rest new op h2

theorem patchPropsAdd_propActs (el : Option Nat) :
    ∀ (old new : List (String × PropVal)) (op : Op),
      op ∈ patchPropsAdd el old new → ∃ t a, op = Op.propAct t a
  | old, [], op, h => by simp [patchPropsAdd] at h
  | old, (k, v) :: rest, op, h => by
      simp only [patchPropsAdd] at h
      rcases List.mem_append.mp h with h1 | h2
      · rcases hs : styleDict v with _ | kvs <;>
          simp only [hs] at h1 <;>
          split_ifs at h1 <;>
          first
            | exact absurd h1 (List.not_mem_nil op)
            | (rw [List.mem_singleton] at h1
               exact ⟨_, _, h1⟩)
            | exact patchStyle_propActs _ _ _ op h1
      · exact patchPropsAdd_propActs el old rest op h2

theorem patch_props_clean (el : Option Nat) (old new : List (String × PropVal)) :
    removeIds (patch_props el old new) = [] ∧
    createIds (patch_props el old new) = [] := by
  refine clean_of_propActs _ ?_
  intro op h
  unfold patch_props at h
  rcases List.mem_append.mp h with h1 | h2
  · exact patchPropsRemove_propActs el old new op h1
  · exact patchPropsAdd_propActs el old new op h2

theorem mountProps_clean (el : Nat) (props : List (String × PropVal)) :
    removeIds (mountProps el props) = [] ∧ createIds (mountProps el props) = [] :=
  clean_of_propActs _ (mountProps_propActs el props)

theorem mount_facts (N : Nat) :
    (∀ parent v n v' n' ops, tsize v ≤ N → mount parent v n = (v', n', ops) →
      removeIds ops = [] ∧ (∀ id ∈ createIds ops, n ≤ id ∧ id < n') ∧ n ≤ n') ∧
    (∀ parent vs n vs' n' ops, fsize vs ≤ N → mountList parent vs n = (vs', n', ops) →
      removeIds ops = [] ∧ (∀ id ∈ createIds ops, n ≤ id ∧ id < n') ∧ n ≤ n') := by
  induction N with
  | zero =>
      constructor
      · intro parent v n v' n' ops ht
        exact absurd ht (by have := tsize_pos v; omega)
      · intro parent vs n vs' n' ops hts hm
        cases vs with
        | nil =>
            simp only [mountList, Prod.mk.injEq] at hm
            obtain ⟨_, h2, h3⟩ := hm
            subst h2
            subst h3
            exact ⟨rfl, by intro id hid; simp [createIds] at hid, Nat.le_refl n⟩
        | cons c cs =>
            exact absurd hts (by have := tsize_pos c; simp only [fsize]; omega)
  | succ N ih =>
      constructor
      · intro parent v n v' n' ops ht hm
        cases v with
        | text s =>
            simp only [mount, Prod.mk.injEq] at hm
            obtain ⟨_, h2, h3⟩ := hm
            subst h2
            subst h3
            exact ⟨rfl, by intro id hid; simp [createIds] at hid, Nat.le_refl n⟩
        | elem tag props children key el =>
            rcases hml : mountList (some n) children (n + 1) with ⟨ch', n1, opsC⟩
            have hsz : fsize children ≤ N := by
              simp only [tsize] at ht
              omega
            obtain ⟨c1, c2, c3⟩ := ih.2 (some n) children (n + 1) ch' n1 opsC hsz hml
            simp only [mount, hml, Prod.mk.injEq] at hm
            obtain ⟨_, h2, h3⟩ := hm
            subst h2
            subst h3
            refine ⟨?_, ?_, by omega⟩
            · show removeIds (Op.createEl n tag ::
                (mountProps n props ++ opsC ++ [Op.appendEl parent n])) = []
              simp only [removeIds, List.filterMap_cons]
              show removeIds (mountProps n props ++ opsC ++ [Op.appendEl parent n]) = []
              rw [removeIds_append, removeIds_append, (mountProps_clean n props).1, c1]
              rfl
            · intro id hid
              have hid2 : id ∈ createIds (Op.createEl n tag ::
                  (mountProps n props ++ opsC ++ [Op.appendEl parent n])) := hid
              simp only [createIds, List.filterMap_cons] at hid2
              rcases List.mem_cons.mp hid2 with rfl | hid3
              · exact ⟨Nat.le_refl _, by omega⟩
              · have hid4 : id ∈ createIds (mountProps n props ++ opsC ++
                    [Op.appendEl parent n]) := hid3
                rw [createIds_append, createIds_append,
                  (mountProps_clean n props).2] at hid4
                simp only [List.nil_append] at hid4
                rcases List.mem_append.mp hid4 with hid5 | hid5
                · obtain ⟨hle, hlt⟩ := c2 id hid5
                  exact ⟨by omega, hlt⟩
                · simp [createIds] at hid5
      · intro parent vs n vs' n' ops hts hm
        cases vs with
        | nil =>
            simp only [mountList, Prod.mk.injEq] at hm
            obtain ⟨_, h2, h3⟩ := hm
            subst h2
            subst h3
            exact ⟨rfl, by intro id hid; simp [createIds] at hid, Nat.le_refl n⟩
        | cons c cs =>
            rcases hm1 : mount parent c n with ⟨c', n1, o1⟩
            rcases hm2 : mountList parent cs n1 with ⟨cs', n2, o2⟩
            have hsz1 : tsize c ≤ N := by
              simp only [fsize] at hts
              omega
            have hsz2 : fsize cs ≤ N := by
              simp only [fsize] at hts
              omega
            obtain ⟨a1, a2, a3⟩ := ih.1 parent c n c' n1 o1 hsz1 hm1
            obtain ⟨b1, b2, b3⟩ := ih.2 parent cs n1 cs' n2 o2 hsz2 hm2
            simp only [mountList, hm1, hm2, Prod.mk.injEq] at hm
            obtain ⟨_, h2, h3⟩ := hm
            subst h2
            subst h3
            refine ⟨by rw [removeIds_append, a1, b1]; rfl, ?_, by omega⟩
            intro id hid
            rw [createIds_append] at hid
            rcases List.mem_append.mp hid with hid1 | hid1
            · obtain ⟨hle, hlt⟩ := a2 id hid1
              exact ⟨hle, by omega⟩
            · obtain ⟨hle, hlt⟩ := b2 id hid1
              exact ⟨by omega, hlt⟩

theorem root_in_treeEls {t : VTree} {e : Nat} (h : elOf t = some e) : e ∈ treeEls t := by
  cases t with
  | text s => simp [elOf] at h
  | elem tag props ch key el =>
      simp only [elOf] at h
      subst h
      simp [treeEls]

theorem treeEls_sub_forest :
    ∀ (olds : List VTree) (t : VTree), t ∈ olds → ∀ e ∈ treeEls t, e ∈ forestEls olds
  | [], t, ht, e, he => by simp at ht
  | c :: cs, t, ht, e, he => by
      show e ∈ treeEls c ++ forestEls cs
      rcases List.mem_cons.mp ht with rfl | h2
      · exact List.mem_append.mpr (Or.inl he)
      · exact List.mem_append.mpr (Or.inr (treeEls_sub_forest cs t h2 e he))

theorem children_els_sub_tree (tag : String) (props : List (String × PropVal))
    (ch : List VTree) (key : Option String) (el : Option Nat) :
    ∀ e ∈ forestEls ch, e ∈ treeEls (.elem tag props ch key el) := by
  intro e he
  show e ∈ el.toList ++ forestEls ch
  exact List.mem_append.mpr (Or.inr he)

theorem dictGet_mem {m : List (String × Nat × VTree)} {k : String} {v : Nat × VTree}
    (h : dictGet m k = some v) : (k, v) ∈ m := by
  unfold dictGet at h
  rcases hf : m.find? (fun e => e.1 = k) with _ | e
  · rw [hf] at h
    cases h
  · rw [hf] at h
    have hv : e.2 = v := by
      simpa using h
    have hmem := List.mem_of_find?_eq_some hf
    have hkey := List.find?_some hf
    simp only [decide_eq_true_eq] at hkey
    have : e = (k, v) := by
      cases e
      simp_all
    rwa [this] at hmem

theorem keyedEls_mem :
    ∀ (m : List (String × Nat × VTree)) (e : String × Nat × VTree), e ∈ m →
      ∀ x ∈ treeEls e.2.2, x ∈ keyedEls m
  | [], e, he, x, hx => by simp at he
  | f :: fs, e, he, x, hx => by
      show x ∈ treeEls f.2.2 ++ keyedEls fs
      rcases List.mem_cons.mp he with rfl | h2
      · exact List.mem_append.mpr (Or.inl hx)
      · exact List.mem_append.mpr (Or.inr (keyedEls_mem fs e h2 x hx))

theorem dictInsert_mem {m : List (String × Nat × VTree)} {k : String} {v : Nat × VTree}
    {e : String × Nat × VTree} (h : e ∈ dictInsert m k v) : e ∈ m ∨ e = (k, v) := by
  unfold dictInsert at h
  split_ifs at h
  · obtain ⟨f, hf, hfe⟩ := List.mem_map.mp h
    split_ifs at hfe
    · exact Or.inr hfe.symm
    · exact Or.inl (hfe ▸ hf)
  · rcases List.mem_append.mp h with h1 | h1
    · exact Or.inl h1
    · exact Or.inr (by simpa using h1)

theorem buildKeyedAux_mem :
    ∀ (cs : List VTree) (i : Nat) (acc : List (String × Nat × VTree))
      (e : String × Nat × VTree), e ∈ buildKeyedAux cs i acc →
      e ∈ acc ∨ e.2.2 ∈ cs
  | [], i, acc, e, h => Or.inl h
  | c :: rest, i, acc, e, h => by
      simp only [buildKeyedAux] at h
      rcases htk : truthyKey c with _ | k
      · rw [htk] at h
        rcases buildKeyedAux_mem rest (i + 1) acc e h with h1 | h1
        · exact Or.inl h1
        · exact Or.inr (List.mem_cons_of_mem c h1)
      · rw [htk] at h
        rcases buildKeyedAux_mem rest (i + 1) (dictInsert acc k (i, c)) e h with h1 | h1
        · rcases dictInsert_mem h1 with h2 | h2
          · exact Or.inl h2
          · refine Or.inr ?_
            rw [h2]
            exact List.mem_cons_self c rest
        · exact Or.inr (List.mem_cons_of_mem c h1)

theorem build_keyed_tree_mem {cs : List VTree} {e : String × Nat × VTree}
    (h : e ∈ build_keyed cs) : e.2.2 ∈ cs := by
  rcases buildKeyedAux_mem cs 0 [] e h with h1 | h1
  · simp at h1
  · exact h1

theorem removeExtras_removeIds_sub :
    ∀ (extras : List VTree) (parent : Parent) (idx : Nat) (id : Nat),
      id ∈ removeIds (removeExtras parent extras idx) →
      ∃ co, co ∈ extras ∧ elOf co = some id
  | [], parent, idx, id, h => by simp [removeExtras, removeIds] at h
  | c :: cs, parent, idx, id, h => by
      rw [show removeExtras parent (c :: cs) idx =
        remove_node parent c idx ++ removeExtras parent cs idx from rfl,
        removeIds_append] at h
      rcases List.mem_append.mp h with h1 | h1
      · cases c with
        | text s => simp [remove_node, removeIds] at h1
        | elem tag props ch key el =>
            cases el with
            | none => simp [remove_node, removeIds] at h1
            | some e =>
                have : id = e := by simpa [remove_node, removeIds] using h1
                subst this
                exact ⟨.elem tag props ch key (some id), List.mem_cons_self _ _, rfl⟩
      · obtain ⟨co, hmem, hel⟩ := removeExtras_removeIds_sub cs parent idx id h1
        exact ⟨co, List.mem_cons_of_mem c hmem, hel⟩

theorem removeExtras_createIds :
    ∀ (extras : List VTree) (parent : Parent) (idx : Nat),
      createIds (removeExtras parent extras idx) = []
  | [], _, _ => rfl
  | c :: cs, parent, idx => by
      rw [show removeExtras parent (c :: cs) idx =
        remove_node parent c idx ++ removeExtras parent cs idx from rfl,
        createIds_append, removeExtras_createIds cs parent idx]
      cases c with
      | text s => rfl
      | elem tag props ch key el => cases el <;> rfl

theorem keyedRemovals_removeIds_sub :
    ∀ (m : List (String × Nat × VTree)) (parent : Parent) (used : List String)
      (id : Nat), id ∈ removeIds (keyedRemovals parent m used) →
      ∃ e, e ∈ m ∧ elOf e.2.2 = some id ∧ used.contains e.1 = false
  | [], parent, used, id, h => by simp [keyedRemovals, removeIds] at h
  | f :: fs, parent, used, id, h => by
      rw [show keyedRemovals parent (f :: fs) used =
        (if used.contains f.1 then [] else remove_node parent f.2.2 0) ++
          keyedRemovals parent fs used from rfl, removeIds_append] at h
      rcases List.mem_append.mp h with h1 | h1
      · split_ifs at h1 with hu
        · simp [removeIds] at h1
        · cases hc : f.2.2 with
          | text s =>
              rw [hc] at h1
              simp [remove_node, removeIds] at h1
          | elem tag props ch key el =>
              rw [hc] at h1
              cases el with
              | none => simp [remove_node, removeIds] at h1
              | some e =>
                  have : id = e := by simpa [remove_node, removeIds] using h1
                  subst this
                  refine ⟨f, List.mem_cons_self f fs, ?_, by simpa using hu⟩
                  rw [hc]
                  rfl
      · obtain ⟨e, hmem, hel, hu⟩ := keyedRemovals_removeIds_sub fs parent used id h1
        exact ⟨e, List.mem_cons_of_mem f hmem, hel, hu⟩

theorem keyedRemovals_removeIds_mem :
    ∀ (m : List (String × Nat × VTree)) (parent : Parent) (used : List String)
      (e : String × Nat × VTree) (eid : Nat), e ∈ m →
      used.contains e.1 = false → elOf e.2.2 = some eid →
      Op.removeEl eid ∈ keyedRemovals parent m used
  | [], parent, used, e, eid, hmem, _, _ => by simp at hmem
  | f :: fs, parent, used, e, eid, hmem, hu, hel => by
      rw [show keyedRemovals parent (f :: fs) used =
        (if used.contains f.1 then [] else remove_node parent f.2.2 0) ++
          keyedRemovals parent fs used from rfl]
      rcases List.mem_cons.mp hmem with rfl | h2
      · refine List.mem_append.mpr (Or.inl ?_)
        rw [if_neg (by rw [hu]; exact Bool.false_ne_true)]
        cases hc : e.2.2 with
        | text s =>
            rw [hc] at hel
            simp [elOf] at hel
        | elem tag props ch key el =>
            rw [hc] at hel
            simp only [elOf] at hel
            subst hel
            simp [remove_node]
      · exact List.mem_append.mpr
          (Or.inr (keyedRemovals_removeIds_mem fs parent used e eid h2 hu hel))

theorem keyedRemovals_createIds :
    ∀ (m : List (String × Nat × VTree)) (parent : Parent) (used : List String),
      createIds (keyedRemovals parent m used) = []
  | [], _, _ => rfl
  | f :: fs, parent, used => by
      rw [show keyedRemovals parent (f :: fs) used =
        (if used.contains f.1 then [] else remove_node parent f.2.2 0) ++
          keyedRemovals parent fs used from rfl,
        createIds_append, keyedRemovals_createIds fs parent used]
      split_ifs
      · rfl
      · cases hc : f.2.2 with
        | text s => rfl
        | elem tag props ch key el => cases el <;> rfl

theorem keyedEls_sub :
    ∀ (m : List (String × Nat × VTree)) (x : Nat), x ∈ keyedEls m →
      ∃ e, e ∈ m ∧ x ∈ treeEls e.2.2
  | [], x, h => by simp [keyedEls] at h
  | f :: fs, x, h => by
      have h2 : x ∈ treeEls f.2.2 ++ keyedEls fs := h
      rcases List.mem_append.mp h2 with h1 | h1
      · exact ⟨f, List.mem_cons_self f fs, h1⟩
      · obtain ⟨e, he, hx⟩ := keyedEls_sub fs x h1
        exact ⟨e, List.mem_cons_of_mem f he, hx⟩

theorem remove_node_removeIds {parent : Parent} {v : VTree} {idx id : Nat}
    (h : id ∈ removeIds (remove_node parent v idx)) : id ∈ treeEls v := by
  cases v with
  | text s => simp [remove_node, removeIds] at h
  | elem tag props ch key el =>
      cases el with
      | none => simp [remove_node, removeIds] at h
      | some e =>
          have : id = e := by simpa [remove_node, removeIds] using h
          subst this
          simp [treeEls]

theorem remove_node_createIds (parent : Parent) (v : VTree) (idx : Nat) :
    createIds (remove_node parent v idx) = [] := by
  cases v with
  | text s => rfl
  | elem tag props ch key el => cases el <;> rfl

theorem patch_none_facts {parent : Parent} {oldV : Option VTree} {i n : Nat}
    {r : Option VTree} {n' : Nat} {ops : List Op}
    (h : patch parent oldV none i n = (r, n', ops)) :
    (∀ id ∈ removeIds ops, id ∈ optEls oldV) ∧
    (∀ id ∈ createIds ops, n ≤ id ∧ id < n') ∧ n ≤ n' := by
  cases oldV with
  | none =>
      simp only [patch, Prod.mk.injEq] at h
      obtain ⟨_, h2, h3⟩ := h
      subst h2
      subst h3
      exact ⟨by intro id hid; simp [removeIds] at hid,
        by intro id hid; simp [createIds] at hid, Nat.le_refl n⟩
  | some ov =>
      simp only [patch, Prod.mk.injEq] at h
      obtain ⟨_, h2, h3⟩ := h
      subst h2
      subst h3
      refine ⟨?_, ?_, Nat.le_refl n⟩
      · intro id hid
        exact remove_node_removeIds hid
      · intro id hid
        rw [remove_node_createIds] at hid
        cases hid

theorem patch_children_of_common {N : Nat} (hc : PFcommon N) : PFchildren N := by
  intro parent olds news n vs' n' ops hsz h
  rcases hpc : patchCommon parent olds news 0 n with ⟨patched, n1, ops1⟩
  rcases hml : mountList parent (news.drop olds.length) n1 with ⟨mounted, n2, ops3⟩
  simp only [patch_children, hpc, hml, Prod.mk.injEq] at h
  obtain ⟨_, h2, h3⟩ := h
  subst h2
  subst h3
  obtain ⟨c1, c2, c3⟩ := hc parent olds news 0 n patched n1 ops1 hsz hpc
  obtain ⟨m1, m2, m3⟩ := (mount_facts (fsize (news.drop olds.length))).2 parent
    (news.drop olds.length) n1 mounted n2 ops3 (Nat.le_refl _) hml
  refine ⟨?_, ?_, by omega⟩
  · intro id hid
    rw [removeIds_append, removeIds_append] at hid
    rcases List.mem_append.mp hid with hid1 | hid1
    · rcases List.mem_append.mp hid1 with hid2 | hid2
      · exact c1 id hid2
      · obtain ⟨co, hco, hel⟩ := removeExtras_removeIds_sub _ parent _ id hid2
        exact treeEls_sub_forest olds co (List.mem_of_mem_drop hco) id (root_in_treeEls hel)
    · rw [m1] at hid1
      cases hid1
  · intro id hid
    rw [createIds_append, createIds_append, removeExtras_createIds,
      List.append_nil] at hid
    rcases List.mem_append.mp hid with hid1 | hid1
    · obtain ⟨hle, hlt⟩ := c2 id hid1
      exact ⟨hle, by omega⟩
    · obtain ⟨hle, hlt⟩ := m2 id hid1
      exact ⟨by omega, hlt⟩

theorem patch_keyed_of_pass {N : Nat} (hp : PFpass N) : PFkeyed N := by
  intro parent olds news n vs' n' ops hsz h
  rcases hkp : keyedPass parent (build_keyed olds) news 0 n with ⟨news2, used, n1, ops1⟩
  simp only [patch_keyed_children, hkp, Prod.mk.injEq] at h
  obtain ⟨_, h2, h3⟩ := h
  subst h2
  subst h3
  obtain ⟨p1, p2, p3⟩ := hp parent (build_keyed olds) news 0 n news2 used n1 ops1 hsz hkp
  refine ⟨?_, ?_, p3⟩
  · intro id hid
    rw [removeIds_append] at hid
    rcases List.mem_append.mp hid with hid1 | hid1
    · obtain ⟨e, he, hx⟩ := keyedEls_sub _ id (p1 id hid1)
      exact treeEls_sub_forest olds e.2.2 (build_keyed_tree_mem he) id hx
    · obtain ⟨e, he, hel, _⟩ := keyedRemovals_removeIds_sub _ parent _ id hid1
      exact treeEls_sub_forest olds e.2.2 (build_keyed_tree_mem he) id
        (root_in_treeEls hel)
  · intro id hid
    rw [createIds_append, keyedRemovals_createIds, List.append_nil] at hid
    exact p2 id hid

theorem patch_facts :
    ∀ N : Nat, PFpatch N ∧ PFcommon N ∧ PFpass N ∧ PFchildren N ∧ PFkeyed N := by
  intro N
  induction N with
  | zero =>
      have hpatch : PFpatch 0 := by
        intro parent oldV newV i n r n' ops hsz h
        cases newV with
        | none => exact patch_none_facts h
        | some nv => exact absurd hsz (by have := tsize_pos nv; simp only [osize]; omega)
      have hcommon : PFcommon 0 := by
        intro parent olds news i n vs' n' ops hsz h
        cases news with
        | nil =>
            cases olds with
            | nil =>
                simp only [patchCommon, Prod.mk.injEq] at h
                obtain ⟨_, h2, h3⟩ := h
                subst h2
                subst h3
                exact ⟨by intro id hid; simp [removeIds] at hid,
                  by intro id hid; simp [createIds] at hid, Nat.le_refl n⟩
            | cons o os =>
                simp only [patchCommon, Prod.mk.injEq] at h
                obtain ⟨_, h2, h3⟩ := h
                subst h2
                subst h3
                exact ⟨by intro id hid; simp [removeIds] at hid,
                  by intro id hid; simp [createIds] at hid, Nat.le_refl n⟩
        | cons c cs =>
            exact absurd hsz (by have := tsize_pos c; simp only [fsize]; omega)
      have hpass : PFpass 0 := by
        intro parent oldKeyed news j n news2 used n1 ops hsz h
        cases news with
        | nil =>
            simp only [keyedPass, Prod.mk.injEq] at h
            obtain ⟨_, _, h3, h4⟩ := h
            subst h3
            subst h4
            exact ⟨by intro id hid; simp [removeIds] at hid,
              by intro id hid; simp [createIds] at hid, Nat.le_refl n⟩
        | cons c cs =>
            exact absurd hsz (by have := tsize_pos c; simp only [fsize]; omega)
      exact ⟨hpatch, hcommon, hpass, patch_children_of_common hcommon,
        patch_keyed_of_pass hpass⟩
  | succ N ih =>
      obtain ⟨ihp, ihc, ihk, _, _⟩ := ih
      have hpatch : PFpatch (N + 1) := by
        intro parent oldV newV i n r n' ops hsz h
        cases newV with
        | none => exact patch_none_facts h
        | some nv =>
          cases oldV with
          | none =>
              rcases hm : mount parent nv n with ⟨t, n1, opsM⟩
              have heq : patch parent none (some nv) i n = (some t, n1, opsM) := by
                simp [patch, hm]
              rw [heq] at h
              simp only [Prod.mk.injEq] at h
              obtain ⟨_, h2, h3⟩ := h
              subst h2
              subst h3
              obtain ⟨m1, m2, m3⟩ := (mount_facts (tsize nv)).1 parent nv n t n1 opsM
                (Nat.le_refl _) hm
              refine ⟨?_, ?_, m3⟩
              · intro id hid
                rw [m1] at hid
                cases hid
              · exact m2
          | some ov =>
            cases ov with
            | text so =>
              cases nv with
              | text sn =>
                  have heq : patch parent (some (.text so)) (some (.text sn)) i n =
                      (some (.text sn), n,
                        if so = sn then [] else [.setTextAt parent i sn]) := by
                    simp [patch]
                  rw [heq] at h
                  simp only [Prod.mk.injEq] at h
                  obtain ⟨_, h2, h3⟩ := h
                  subst h2
                  subst h3
                  refine ⟨?_, ?_, Nat.le_refl _⟩
                  · intro id hid
                    split_ifs at hid <;> simp [removeIds] at hid
                  · intro id hid
                    split_ifs at hid <;> simp [createIds] at hid
              | elem tn pn cn kn en =>
                  rcases hm : mount parent (.elem tn pn cn kn en) n with ⟨t, n1, opsM⟩
                  have heq : patch parent (some (.text so))
                      (some (.elem tn pn cn kn en)) i n =
                      (some t, n1, remove_node parent (.text so) i ++ opsM) := by
                    simp [patch, hm]
                  rw [heq] at h
                  simp only [Prod.mk.injEq] at h
                  obtain ⟨_, h2, h3⟩ := h
                  subst h2
                  subst h3
                  obtain ⟨m1, m2, m3⟩ := (mount_facts (tsize (VTree.elem tn pn cn kn en))).1
                    parent _ n t n1 opsM (Nat.le_refl _) hm
                  refine ⟨?_, ?_, m3⟩
                  · intro id hid
                    rw [removeIds_append, m1, List.append_nil] at hid
                    simp [remove_node, removeIds] at hid
                  · intro id hid
                    rw [createIds_append, remove_node_createIds, List.nil_append] at hid
                    exact m2 id hid
            | elem to_ po co ko eo =>
              cases nv with
              | text sn =>
                  rcases hm : mount parent (.text sn) n with ⟨t, n1, opsM⟩
                  have heq : patch parent (some (.elem to_ po co ko eo))
                      (some (.text sn)) i n =
                      (some t, n1, remove_node parent (.elem to_ po co ko eo) i ++ opsM) := by
                    simp [patch, hm]
                  rw [heq] at h
                  simp only [Prod.mk.injEq] at h
                  obtain ⟨_, h2, h3⟩ := h
                  subst h2
                  subst h3
                  obtain ⟨m1, m2, m3⟩ := (mount_facts (tsize (VTree.text sn))).1
                    parent _ n t n1 opsM (Nat.le_refl _) hm
                  refine ⟨?_, ?_, m3⟩
                  · intro id hid
                    rw [removeIds_append, m1, List.append_nil] at hid
                    exact remove_node_removeIds hid
                  · intro id hid
                    rw [createIds_append, remove_node_createIds, List.nil_append] at hid
                    exact m2 id hid
              | elem tn pn cn kn en =>
                  by_cases htag : to_ = tn
                  · have hszc : fsize cn ≤ N := by
                      simp only [osize, tsize] at hsz
                      omega
                    by_cases hk : has_keys cn
                    · rcases hpk : patch_keyed_children eo co cn n with ⟨cn2, n1, opsC⟩
                      have heq : patch parent (some (.elem to_ po co ko eo))
                          (some (.elem tn pn cn kn en)) i n =
                          (some (.elem tn pn cn2 kn eo), n1,
                            patch_props eo po pn ++ opsC) := by
                        subst htag
                        simp [patch, hk, hpk]
                      rw [heq] at h
                      simp only [Prod.mk.injEq] at h
                      obtain ⟨_, h2, h3⟩ := h
                      subst h2
                      subst h3
                      obtain ⟨k1, k2, k3⟩ := (patch_keyed_of_pass ihk) eo co cn n cn2 n1
                        opsC hszc hpk
                      refine ⟨?_, ?_, k3⟩
                      · intro id hid
                        rw [removeIds_append, (patch_props_clean eo po pn).1,
                          List.nil_append] at hid
                        show id ∈ treeEls (VTree.elem to_ po co ko eo)
                        exact children_els_sub_tree to_ po co ko eo id (k1 id hid)
                      · intro id hid
                        rw [createIds_append, (patch_props_clean eo po pn).2,
                          List.nil_append] at hid
                        exact k2 id hid
                    · rcases hpc : patch_children eo co cn n with ⟨cn2, n1, opsC⟩
                      have heq : patch parent (some (.elem to_ po co ko eo))
                          (some (.elem tn pn cn kn en)) i n =
                          (some (.elem tn pn cn2 kn eo), n1,
                            patch_props eo po pn ++ opsC) := by
                        subst htag
                        simp [patch, hk, hpc]
                      rw [heq] at h
                      simp only [Prod.mk.injEq] at h
                      obtain ⟨_, h2, h3⟩ := h
                      subst h2
                      subst h3
                      obtain ⟨k1, k2, k3⟩ := (patch_children_of_common ihc) eo co cn n cn2
                        n1 opsC hszc hpc
                      refine ⟨?_, ?_, k3⟩
                      · intro id hid
                        rw [removeIds_append, (patch_props_clean eo po pn).1,
                          List.nil_append] at hid
                        show id ∈ treeEls (VTree.elem to_ po co ko eo)
                        exact children_els_sub_tree to_ po co ko eo id (k1 id hid)
                      · intro id hid
                        rw [createIds_append, (patch_props_clean eo po pn).2,
                          List.nil_append] at hid
                        exact k2 id hid
                  · rcases hm : mount parent (.elem tn pn cn kn en) n with ⟨t, n1, opsM⟩
                    have heq : patch parent (some (.elem to_ po co ko eo))
                        (some (.elem tn pn cn kn en)) i n =
                        (some t, n1,
                          remove_node parent (.elem to_ po co ko eo) i ++ opsM) := by
                      simp [patch, htag, hm]
                    rw [heq] at h
                    simp only [Prod.mk.injEq] at h
                    obtain ⟨_, h2, h3⟩ := h
                    subst h2
                    subst h3
                    obtain ⟨m1, m2, m3⟩ := (mount_facts (tsize (VTree.elem tn pn cn kn en))).1
                      parent _ n t n1 opsM (Nat.le_refl _) hm
                    refine ⟨?_, ?_, m3⟩
                    · intro id hid
                      rw [removeIds_append, m1, List.append_nil] at hid
                      exact remove_node_removeIds hid
                    · intro id hid
                      rw [createIds_append, remove_node_createIds, List.nil_append] at hid
                      exact m2 id hid
      have hcommon : PFcommon (N + 1) := by
        intro parent olds news i n vs' n' ops hsz h
        cases news with
        | nil =>
            cases olds with
            | nil =>
                simp only [patchCommon, Prod.mk.injEq] at h
                obtain ⟨_, h2, h3⟩ := h
                subst h2
                subst h3
                exact ⟨by intro id hid; simp [removeIds] at hid,
                  by intro id hid; simp [createIds] at hid, Nat.le_refl n⟩
            | cons o os =>
                simp only [patchCommon, Prod.mk.injEq] at h
                obtain ⟨_, h2, h3⟩ := h
                subst h2
                subst h3
                exact ⟨by intro id hid; simp [removeIds] at hid,
                  by intro id hid; simp [createIds] at hid, Nat.le_refl n⟩
        | cons nw ns =>
            cases olds with
            | nil =>
                simp only [patchCommon, Prod.mk.injEq] at h
                obtain ⟨_, h2, h3⟩ := h
                subst h2
                subst h3
                exact ⟨by intro id hid; simp [removeIds] at hid,
                  by intro id hid; simp [createIds] at hid, Nat.le_refl n⟩
            | cons o os =>
                rcases hp1 : patch parent (some o) (some nw) i n with ⟨t1, n1, ops1⟩
                rcases hr : patchCommon parent os ns (i + 1) n1 with ⟨rest, n2, ops2⟩
                simp only [patchCommon, hp1, hr, Prod.mk.injEq] at h
                obtain ⟨_, h2, h3⟩ := h
                subst h2
                subst h3
                have hsz1 : osize (some nw) ≤ N := by
                  simp only [fsize] at hsz
                  simp only [osize]
                  omega
                have hsz2 : fsize ns ≤ N := by
                  simp only [fsize] at hsz
                  omega
                obtain ⟨a1, a2, a3⟩ := ihp parent (some o) (some nw) i n t1 n1 ops1 hsz1 hp1
                obtain ⟨b1, b2, b3⟩ := ihc parent os ns (i + 1) n1 rest n2 ops2 hsz2 hr
                refine ⟨?_, ?_, by omega⟩
                · intro id hid
                  rw [removeIds_append] at hid
                  show id ∈ treeEls o ++ forestEls os
                  rcases List.mem_append.mp hid with h1 | h1
                  · exact List.mem_append.mpr (Or.inl (a1 id h1))
                  · exact List.mem_append.mpr (Or.inr (b1 id h1))
                · intro id hid
                  rw [createIds_append] at hid
                  rcases List.mem_append.mp hid with h1 | h1
                  · obtain ⟨hle, hlt⟩ := a2 id h1
                    exact ⟨hle, by omega⟩
                  · obtain ⟨hle, hlt⟩ := b2 id h1
                    exact ⟨by omega, hlt⟩
      have hpass : PFpass (N + 1) := by
        intro parent oldKeyed news j n news2 used n1 ops hsz h
        cases news with
        | nil =>
            simp only [keyedPass, Prod.mk.injEq] at h
            obtain ⟨_, _, h3, h4⟩ := h
            subst h3
            subst h4
            exact ⟨by intro id hid; simp [removeIds] at hid,
              by intro id hid; simp [createIds] at hid, Nat.le_refl n⟩
        | cons c rest =>
            have hszc : osize (some c) ≤ N := by
              simp only [fsize] at hsz
              simp only [osize]
              omega
            have hszr : fsize rest ≤ N := by
              simp only [fsize] at hsz
              omega
            rcases htk : truthyKey c with _ | k
            · rcases hr : keyedPass parent oldKeyed rest (j + 1) n with ⟨rest', u, n2, ops2⟩
              simp only [keyedPass, htk, hr, Prod.mk.injEq] at h
              obtain ⟨_, h2, h3, h4⟩ := h
              subst h2
              subst h3
              subst h4
              exact ihk parent oldKeyed rest (j + 1) n rest' u n2 ops2 hszr hr
            · rcases hdg : dictGet oldKeyed k with _ | io
              · rcases hm : mount parent c n with ⟨c1, n2, ops1⟩
                rcases hr : keyedPass parent oldKeyed rest (j + 1) n2 with
                  ⟨rest', u, n3, ops2⟩
                simp only [keyedPass, htk, hdg, hm, hr, Prod.mk.injEq] at h
                obtain ⟨_, h2, h3, h4⟩ := h
                subst h2
                subst h3
                subst h4
                obtain ⟨m1, m2, m3⟩ := (mount_facts (tsize c)).1 parent c n c1 n2 ops1
                  (Nat.le_refl _) hm
                obtain ⟨b1, b2, b3⟩ := ihk parent oldKeyed rest (j + 1) n2 rest' u n3
                  ops2 hszr hr
                refine ⟨?_, ?_, by omega⟩
                · intro id hid
                  rw [removeIds_append, removeIds_append, m1] at hid
                  simp only [List.nil_append] at hid
                  rcases List.mem_append.mp hid with h1 | h1
                  · simp [removeIds] at h1
                  · exact b1 id h1
                · intro id hid
                  rw [createIds_append, createIds_append] at hid
                  rcases List.mem_append.mp hid with h1 | h1
                  · rcases List.mem_append.mp h1 with h5 | h5
                    · obtain ⟨hle, hlt⟩ := m2 id h5
                      exact ⟨hle, by omega⟩
                    · simp [createIds] at h5
                  · obtain ⟨hle, hlt⟩ := b2 id h1
                    exact ⟨by omega, hlt⟩
              · rcases hp1 : patch parent (some io.2) (some c) j n with ⟨t1, n2, ops1⟩
                rcases hr : keyedPass parent oldKeyed rest (j + 1) n2 with
                  ⟨rest', u, n3, ops2⟩
                simp only [keyedPass, htk, hdg, hp1, hr, Prod.mk.injEq] at h
                obtain ⟨_, h2, h3, h4⟩ := h
                subst h2
                subst h3
                subst h4
                obtain ⟨a1, a2, a3⟩ := ihp parent (some io.2) (some c) j n t1 n2 ops1
                  hszc hp1
                obtain ⟨b1, b2, b3⟩ := ihk parent oldKeyed rest (j + 1) n2 rest' u n3
                  ops2 hszr hr
                refine ⟨?_, ?_, by omega⟩
                · intro id hid
                  rw [removeIds_append, removeIds_append] at hid
                  rcases List.mem_append.mp hid with h1 | h1
                  · rcases List.mem_append.mp h1 with h5 | h5
                    · exact keyedEls_mem oldKeyed (k, io) (dictGet_mem hdg) id (a1 id h5)
                    · split_ifs at h5 <;> simp [move_node, removeIds] at h5
                  · exact b1 id h1
                · intro id hid
                  rw [createIds_append, createIds_append] at hid
                  rcases List.mem_append.mp hid with h1 | h1
                  · rcases List.mem_append.mp h1 with h5 | h5
                    · obtain ⟨hle, hlt⟩ := a2 id h5
                      exact ⟨hle, by omega⟩
                    · split_ifs at h5 <;> simp [move_node, createIds] at h5
                  · obtain ⟨hle, hlt⟩ := b2 id h1
                    exact ⟨by omega, hlt⟩
      exact ⟨hpatch, hcommon, hpass, patch_children_of_common hcommon,
        patch_keyed_of_pass hpass⟩

theorem mem_removeIds {ops : List Op} {id : Nat} :
    id ∈ removeIds ops ↔ Op.removeEl id ∈ ops := by
  unfold removeIds
  rw [List.mem_filterMap]
  constructor
  · rintro ⟨op, hop, hf⟩
    cases op <;> simp_all
  · intro h
    exact ⟨Op.removeEl id, h, rfl⟩

theorem treeInnerEls_sub {t : VTree} {x : Nat} (h : x ∈ treeInnerEls t) :
    x ∈ treeEls t := by
  cases t with
  | text s => simp [treeInnerEls] at h
  | elem tag props ch key el =>
      show x ∈ el.toList ++ forestEls ch
      exact List.mem_append.mpr (Or.inr h)

theorem nodup_of_mem_forest :
    ∀ (olds : List VTree), (forestEls olds).Nodup → ∀ t ∈ olds, (treeEls t).Nodup
  | [], h, t, ht => by simp at ht
  | c :: cs, h, t, ht => by
      have h2 : (treeEls c ++ forestEls cs).Nodup := h
      rcases List.mem_cons.mp ht with rfl | h3
      · exact (List.nodup_append.mp h2).1
      · exact nodup_of_mem_forest cs (List.nodup_append.mp h2).2.1 t h3

theorem nodup_forest_disjoint :
    ∀ (olds : List VTree), (forestEls olds).Nodup →
      ∀ t1, t1 ∈ olds → ∀ t2, t2 ∈ olds → t1 ≠ t2 →
      ∀ x, x ∈ treeEls t1 → x ∉ treeEls t2
  | [], h, t1, h1, t2, h2, hne, x, hx => by simp at h1
  | c :: cs, h, t1, h1, t2, h2, hne, x, hx => by
      have hnd : (treeEls c ++ forestEls cs).Nodup := h
      obtain ⟨hndc, hndcs, hdisj⟩ := List.nodup_append.mp hnd
      rcases List.mem_cons.mp h1 with rfl | h1x
      · rcases List.mem_cons.mp h2 with rfl | h2x
        · exact absurd rfl hne
        · intro hx2
          exact hdisj hx (treeEls_sub_forest cs t2 h2x x hx2)
      · rcases List.mem_cons.mp h2 with rfl | h2x
        · intro hx2
          exact hdisj hx2 (treeEls_sub_forest cs t1 h1x x hx)
        · exact nodup_forest_disjoint cs hndcs t1 h1x t2 h2x hne x hx

theorem dictInsert_self (m : List (String × Nat × VTree)) (k : String)
    (v : Nat × VTree) : (k, v) ∈ dictInsert m k v := by
  unfold dictInsert
  split_ifs with hany
  · rw [List.any_eq_true] at hany
    obtain ⟨x, hx, hxk⟩ := hany
    simp only [decide_eq_true_eq] at hxk
    have hm := List.mem_map_of_mem (fun e => if e.1 = k then (k, v) else e) hx
    have hfx : (fun e => if e.1 = k then (k, v) else e) x = (k, v) := by
      simp [hxk]
    rwa [hfx] at hm
  · exact List.mem_append.mpr (Or.inr (List.mem_singleton.mpr rfl))

theorem buildKeyedAux_key :
    ∀ (cs : List VTree) (i : Nat) (acc : List (String × Nat × VTree)),
      (∀ e ∈ acc, truthyKey e.2.2 = some e.1) →
      ∀ e ∈ buildKeyedAux cs i acc, truthyKey e.2.2 = some e.1
  | [], i, acc, hacc, e, he => hacc e he
  | c :: rest, i, acc, hacc, e, he => by
      simp only [buildKeyedAux] at he
      rcases htk : truthyKey c with _ | k
      · rw [htk] at he
        exact buildKeyedAux_key rest (i + 1) acc hacc e he
      · rw [htk] at he
        refine buildKeyedAux_key rest (i + 1) (dictInsert acc k (i, c)) ?_ e he
        intro f hf
        rcases dictInsert_mem hf with h1 | h1
        · exact hacc f h1
        · rw [h1]
          exact htk

theorem build_keyed_key {cs : List VTree} {e : String × Nat × VTree}
    (h : e ∈ build_keyed cs) : truthyKey e.2.2 = some e.1 :=
  buildKeyedAux_key cs 0 [] (by intro f hf; simp at hf) e h

theorem buildKeyedAux_acc_mono :
    ∀ (cs : List VTree) (i : Nat) (acc : List (String × Nat × VTree))
      (e : String × Nat × VTree), e ∈ acc → e.1 ∉ cs.filterMap truthyKey →
      e ∈ buildKeyedAux cs i acc
  | [], i, acc, e, he, hk => he
  | c :: rest, i, acc, e, he, hk => by
      simp only [buildKeyedAux]
      rcases htk : truthyKey c with _ | k
      · simp only [htk]
        refine buildKeyedAux_acc_mono rest (i + 1) acc e he ?_
        have hfm : List.filterMap truthyKey (c :: rest) =
            List.filterMap truthyKey rest := by
          simp only [List.filterMap_cons, htk]
        rwa [hfm] at hk
      · simp only [htk]
        have hfm : List.filterMap truthyKey (c :: rest) =
            k :: List.filterMap truthyKey rest := by
          simp only [List.filterMap_cons, htk]
        rw [hfm, List.mem_cons] at hk
        push_neg at hk
        refine buildKeyedAux_acc_mono rest (i + 1) (dictInsert acc k (i, c)) e ?_ hk.2
        unfold dictInsert
        split_ifs with hany
        · have hm := List.mem_map_of_mem (fun f => if f.1 = k then (k, (i, c)) else f) he
          have hfx : (fun f => if f.1 = k then (k, (i, c)) else f) e = e := by
            simp [hk.1]
          rwa [hfx] at hm
        · exact List.mem_append.mpr (Or.inl he)

theorem buildKeyedAux_mem_of :
    ∀ (cs : List VTree) (i : Nat) (acc : List (String × Nat × VTree)),
      (cs.filterMap truthyKey).Nodup →
      ∀ t, t ∈ cs → ∀ k, truthyKey t = some k →
      ∃ j, (k, j, t) ∈ buildKeyedAux cs i acc
  | [], i, acc, hnd, t, ht, k, hk => by simp at ht
  | c :: rest, i, acc, hnd, t, ht, k, hk => by
      rcases List.mem_cons.mp ht with heq | htr
      · subst heq
        simp only [buildKeyedAux, hk]
        have hfm : List.filterMap truthyKey (t :: rest) =
            k :: List.filterMap truthyKey rest := by
          simp only [List.filterMap_cons, hk]
        rw [hfm] at hnd
        have hknotin : k ∉ rest.filterMap truthyKey := (List.nodup_cons.mp hnd).1
        refine ⟨i, buildKeyedAux_acc_mono rest (i + 1) _ _ (dictInsert_self acc k (i, t)) ?_⟩
        exact hknotin
      · rcases htk : truthyKey c with _ | kc
        · simp only [buildKeyedAux, htk]
          have hfm : List.filterMap truthyKey (c :: rest) =
              List.filterMap truthyKey rest := by
            simp only [List.filterMap_cons, htk]
          rw [hfm] at hnd
          exact buildKeyedAux_mem_of rest (i + 1) acc hnd t htr k hk
        · simp only [buildKeyedAux, htk]
          have hfm : List.filterMap truthyKey (c :: rest) =
              kc :: List.filterMap truthyKey rest := by
            simp only [List.filterMap_cons, htk]
          rw [hfm] at hnd
          exact buildKeyedAux_mem_of rest (i + 1) (dictInsert acc kc (i, c))
            (List.nodup_cons.mp hnd).2 t htr k hk

theorem build_keyed_mem_of {cs : List VTree} {t : VTree} {k : String}
    (hnd : (cs.filterMap truthyKey).Nodup) (ht : t ∈ cs)
    (hk : truthyKey t = some k) : ∃ j, (k, j, t) ∈ build_keyed cs :=
  buildKeyedAux_mem_of cs 0 [] hnd t ht k hk

theorem keyedPass_used :
    ∀ (news : List VTree) (parent : Parent) (m : List (String × Nat × VTree))
      (j n : Nat) (news' : List VTree) (used : List String) (n' : Nat)
      (ops : List Op),
      keyedPass parent m news j n = (news', used, n', ops) →
      used = news.filterMap truthyKey
  | [], parent, m, j, n, news', used, n', ops, h => by
      simp only [keyedPass, Prod.mk.injEq] at h
      rw [← h.2.1]
      rfl
  | c :: rest, parent, m, j, n, news', used, n', ops, h => by
      rcases htk : truthyKey c with _ | k
      · rcases hr : keyedPass parent m rest (j + 1) n with ⟨rest', u, n2, ops2⟩
        simp only [keyedPass, htk, hr, Prod.mk.injEq] at h
        obtain ⟨_, h2, _, _⟩ := h
        have hu := keyedPass_used rest parent m (j + 1) n rest' u n2 ops2 hr
        rw [← h2, hu]
        simp only [List.filterMap_cons, htk]
      · rcases hdg : dictGet m k with _ | io
        · rcases hm : mount parent c n with ⟨c1, n2, ops1⟩
          rcases hr : keyedPass parent m rest (j + 1) n2 with ⟨rest', u, n3, ops2⟩
          simp only [keyedPass, htk, hdg, hm, hr, Prod.mk.injEq] at h
          obtain ⟨_, h2, _, _⟩ := h
          have hu := keyedPass_used rest parent m (j + 1) n2 rest' u n3 ops2 hr
          rw [← h2, hu]
          simp only [List.filterMap_cons, htk]
        · rcases hp1 : patch parent (some io.2) (some c) j n with ⟨t1, n2, ops1⟩
          rcases hr : keyedPass parent m rest (j + 1) n2 with ⟨rest', u, n3, ops2⟩
          simp only [keyedPass, htk, hdg, hp1, hr, Prod.mk.injEq] at h
          obtain ⟨_, h2, _, _⟩ := h
          have hu := keyedPass_used rest parent m (j + 1) n2 rest' u n3 ops2 hr
          rw [← h2, hu]
          simp only [List.filterMap_cons, htk]

theorem patch_same_tag_facts {parent : Parent} {t : String}
    {po pn : List (String × PropVal)} {co cn : List VTree} {ko kn : Option String}
    {eo en : Option Nat} {i n : Nat} {r : Option VTree} {n' : Nat} {ops : List Op}
    (h : patch parent (some (.elem t po co ko eo)) (some (.elem t pn cn kn en)) i n =
      (r, n', ops)) :
    (∃ cn', r = some (.elem t pn cn' kn eo)) ∧
    (∀ id ∈ removeIds ops, id ∈ forestEls co) ∧
    (∀ id ∈ createIds ops, n ≤ id ∧ id < n') ∧ n ≤ n' := by
  by_cases hk : has_keys cn
  · rcases hpk : patch_keyed_children eo co cn n with ⟨cn2, n1, opsC⟩
    have heq : patch parent (some (.elem t po co ko eo))
        (some (.elem t pn cn kn en)) i n =
        (some (.elem t pn cn2 kn eo), n1, patch_props eo po pn ++ opsC) := by
      simp [patch, hk, hpk]
    rw [heq] at h
    simp only [Prod.mk.injEq] at h
    obtain ⟨h1, h2, h3⟩ := h
    subst h2
    subst h3
    obtain ⟨k1, k2, k3⟩ := (patch_facts (fsize cn)).2.2.2.2 eo co cn n cn2 n1 opsC
      (Nat.le_refl _) hpk
    refine ⟨⟨cn2, h1.symm⟩, ?_, ?_, k3⟩
    · intro id hid
      rw [removeIds_append, (patch_props_clean eo po pn).1, List.nil_append] at hid
      exact k1 id hid
    · intro id hid
      rw [createIds_append, (patch_props_clean eo po pn).2, List.nil_append] at hid
      exact k2 id hid
  · rcases hpc : patch_children eo co cn n with ⟨cn2, n1, opsC⟩
    have heq : patch parent (some (.elem t po co ko eo))
        (some (.elem t pn cn kn en)) i n =
        (some (.elem t pn cn2 kn eo), n1, patch_props eo po pn ++ opsC) := by
      simp [patch, hk, hpc]
    rw [heq] at h
    simp only [Prod.mk.injEq] at h
    obtain ⟨h1, h2, h3⟩ := h
    subst h2
    subst h3
    obtain ⟨k1, k2, k3⟩ := (patch_facts (fsize cn)).2.2.2.1 eo co cn n cn2 n1 opsC
      (Nat.le_refl _) hpc
    refine ⟨⟨cn2, h1.symm⟩, ?_, ?_, k3⟩
    · intro id hid
      rw [removeIds_append, (patch_props_clean eo po pn).1, List.nil_append] at hid
      exact k1 id hid
    · intro id hid
      rw [createIds_append, (patch_props_clean eo po pn).2, List.nil_append] at hid
      exact k2 id hid

theorem keyedPass_refined :
    ∀ (news : List VTree) (parent : Parent) (m : List (String × Nat × VTree))
      (j n : Nat) (news' : List VTree) (used : List String) (n' : Nat)
      (ops : List Op),
      (∀ c ∈ news, ∀ k io, truthyKey c = some k → dictGet m k = some io →
        sameTag io.2 c = true) →
      keyedPass parent m news j n = (news', used, n', ops) →
      (∀ id ∈ removeIds ops, ∃ e, e ∈ m ∧ id ∈ treeInnerEls e.2.2) ∧
      (∀ id ∈ createIds ops, n ≤ id) ∧
      List.Forall₂ (fun c c' => ∀ k io, truthyKey c = some k →
        dictGet m k = some io → elOf c' = elOf io.2) news news'
  | [], parent, m, j, n, news', used, n', ops, hsame, h => by
      simp only [keyedPass, Prod.mk.injEq] at h
      obtain ⟨h1, _, _, h4⟩ := h
      subst h1
      subst h4
      exact ⟨by intro id hid; simp [removeIds] at hid,
        by intro id hid; simp [createIds] at hid, List.Forall₂.nil⟩
  | c :: rest, parent, m, j, n, news', used, n', ops, hsame, h => by
      have hsr : ∀ cx ∈ rest, ∀ k io, truthyKey cx = some k →
          dictGet m k = some io → sameTag io.2 cx = true := by
        intro cx hcx k io h1 h2
        exact hsame cx (List.mem_cons_of_mem c hcx) k io h1 h2
      rcases htk : truthyKey c with _ | k
      · rcases hr : keyedPass parent m rest (j + 1) n with ⟨rest', u, n2, ops2⟩
        simp only [keyedPass, htk, hr, Prod.mk.injEq] at h
        obtain ⟨h1, _, h3, h4⟩ := h
        subst h1
        subst h3
        subst h4
        obtain ⟨b1, b2, b3⟩ := keyedPass_refined rest parent m (j + 1) n rest' u n2
          ops2 hsr hr
        refine ⟨b1, b2, List.Forall₂.cons ?_ b3⟩
        intro k io h1 h2
        rw [htk] at h1
        cases h1
      · rcases hdg : dictGet m k with _ | io
        · rcases hm : mount parent c n with ⟨c1, n2, ops1⟩
          rcases hr : keyedPass parent m rest (j + 1) n2 with ⟨rest', u, n3, ops2⟩
          simp only [keyedPass, htk, hdg, hm, hr, Prod.mk.injEq] at h
          obtain ⟨h1, _, h3, h4⟩ := h
          subst h1
          subst h3
          subst h4
          obtain ⟨m1, m2, m3⟩ := (mount_facts (tsize c)).1 parent c n c1 n2 ops1
            (Nat.le_refl _) hm
          obtain ⟨b1, b2, b3⟩ := keyedPass_refined rest parent m (j + 1) n2 rest' u n3
            ops2 hsr hr
          refine ⟨?_, ?_, List.Forall₂.cons ?_ b3⟩
          · intro id hid
            rw [removeIds_append, removeIds_append, m1] at hid
            simp only [List.nil_append] at hid
            rcases List.mem_append.mp hid with h5 | h5
            · simp [removeIds] at h5
            · exact b1 id h5
          · intro id hid
            rw [createIds_append, createIds_append] at hid
            rcases List.mem_append.mp hid with h5 | h5
            · rcases List.mem_append.mp h5 with h6 | h6
              · exact (m2 id h6).1
              · simp [createIds] at h6
            · have := b2 id h5
              omega
          · intro k2 io2 h1 h2
            rw [htk] at h1
            injection h1 with hkk
            subst hkk
            rw [hdg] at h2
            cases h2
        · rcases hp1 : patch parent (some io.2) (some c) j n with ⟨t1, n2, ops1⟩
          rcases hr : keyedPass parent m rest (j + 1) n2 with ⟨rest', u, n3, ops2⟩
          simp only [keyedPass, htk, hdg, hp1, hr, Prod.mk.injEq] at h
          obtain ⟨h1, _, h3, h4⟩ := h
          subst h1
          subst h3
          subst h4
          have hst : sameTag io.2 c = true :=
            hsame c (List.mem_cons_self c rest) k io htk hdg
          obtain ⟨b1, b2, b3⟩ := keyedPass_refined rest parent m (j + 1) n2 rest' u n3
            ops2 hsr hr
          cases c with
          | text sc => simp [truthyKey] at htk
          | elem tn pn cn kn en =>
            cases hio2 : io.2 with
            | text so =>
                rw [hio2] at hst
                simp [sameTag] at hst
            | elem to2 po2 co2 ko2 eo2 =>
                rw [hio2] at hst
                simp only [sameTag, decide_eq_true_eq] at hst
                subst hst
                rw [hio2] at hp1
                obtain ⟨⟨cn2, ht1⟩, r1, r2, r3⟩ := patch_same_tag_facts hp1
                refine ⟨?_, ?_, List.Forall₂.cons ?_ b3⟩
                · intro id hid
                  rw [removeIds_append, removeIds_append] at hid
                  rcases List.mem_append.mp hid with h5 | h5
                  · rcases List.mem_append.mp h5 with h6 | h6
                    · refine ⟨(k, io), dictGet_mem hdg, ?_⟩
                      show id ∈ treeInnerEls io.2
                      rw [hio2]
                      exact r1 id h6
                    · split_ifs at h6 <;> simp [move_node, removeIds] at h6
                  · exact b1 id h5
                · intro id hid
                  rw [createIds_append, createIds_append] at hid
                  rcases List.mem_append.mp hid with h5 | h5
                  · rcases List.mem_append.mp h5 with h6 | h6
                    · exact (r2 id h6).1
                    · split_ifs at h6 <;> simp [move_node, createIds] at h6
                  · have := b2 id h5
                    have := r3
                    omega
                · intro k2 io2 h1 h2
                  rw [htk] at h1
                  injection h1 with hkk
                  subst hkk
                  rw [hdg] at h2
                  injection h2 with hio
                  subst hio
                  rw [ht1, hio2]
                  rfl

/-- C3 (corrected; see `claim_C3_cex` for the counterexample to the
original wording): for keyed reconciliation `patch_keyed_children` under
the standing well-formedness assumptions (sibling keys truthy and
distinct, host identities populated, distinct and older than the fresh
counter) and the amendment that every matched old/new pair is of the
same kind (equal tags), (a) every old keyed child whose key does not
occur among the new children's keys gets a `removeEl` call for its
host; (b) exactly those siblings are removed: a child whose key occurs
among the new keys is never removed and its host is never recreated;
(c) every new child whose key occurs in the old keyed map ends up
carrying the matched old child's host reference (reuse, no remount). -/
theorem claim_C3
    (parent : Parent) (olds news : List VTree) (n : Nat)
    (news' : List VTree) (n' : Nat) (ops : List Op)
    (hNodupK : (olds.filterMap truthyKey).Nodup)
    (hNodupE : (forestEls olds).Nodup)
    (hFresh : ∀ id ∈ forestEls olds, id < n)
    (hSame : ∀ c ∈ news, ∀ k io, truthyKey c = some k →
      dictGet (build_keyed olds) k = some io → sameTag io.2 c = true)
    (hrun : patch_keyed_children parent olds news n = (news', n', ops)) :
    (∀ t ∈ olds, ∀ k e0, truthyKey t = some k → elOf t = some e0 →
      k ∉ news.filterMap truthyKey → Op.removeEl e0 ∈ ops) ∧
    (∀ t ∈ olds, ∀ k e0, truthyKey t = some k → elOf t = some e0 →
      k ∈ news.filterMap truthyKey →
      Op.removeEl e0 ∉ ops ∧ e0 ∉ createIds ops) ∧
    List.Forall₂ (fun c c' => ∀ k io, truthyKey c = some k →
      dictGet (build_keyed olds) k = some io → elOf c' = elOf io.2) news news' := by
  rcases hkp : keyedPass parent (build_keyed olds) news 0 n with ⟨news2, used, n1, ops1⟩
  simp only [patch_keyed_children, hkp, Prod.mk.injEq] at hrun
  obtain ⟨h1, h2, h3⟩ := hrun
  subst h1
  subst h2
  subst h3
  have hused : used = news.filterMap truthyKey :=
    keyedPass_used news parent (build_keyed olds) 0 n news2 used n1 ops1 hkp
  obtain ⟨r1, r2, r3⟩ := keyedPass_refined news parent (build_keyed olds) 0 n news2
    used n1 ops1 hSame hkp
  refine ⟨?_, ?_, r3⟩
  · intro t ht k e0 htk hel hkno
    obtain ⟨j0, hml⟩ := build_keyed_mem_of hNodupK ht htk
    have hcontains : used.contains k = false := by
      rw [hused]
      rcases hc : (news.filterMap truthyKey).contains k with _ | _
      · rfl
      · exact absurd (List.mem_of_elem_eq_true hc) hkno
    have hrem := keyedRemovals_removeIds_mem (build_keyed olds) parent used
      (k, j0, t) e0 hml hcontains hel
    exact List.mem_append.mpr (Or.inr hrem)
  · intro t ht k e0 htk hel hkyes
    have he0t : e0 ∈ treeEls t := root_in_treeEls hel
    constructor
    · intro habs
      rcases List.mem_append.mp habs with hin | hin
      · have hidm : e0 ∈ removeIds ops1 := mem_removeIds.mpr hin
        obtain ⟨e, hem, hid⟩ := r1 e0 hidm
        have htree : e.2.2 ∈ olds := build_keyed_tree_mem hem
        by_cases heq : e.2.2 = t
        · rw [heq] at hid
          have hnd := nodup_of_mem_forest olds hNodupE t ht
          cases t with
          | text s => simp [elOf] at hel
          | elem tag props ch key el =>
              simp only [elOf] at hel
              subst hel
              have hnd2 : (e0 :: forestEls ch).Nodup := hnd
              exact (List.nodup_cons.mp hnd2).1 hid
        · exact nodup_forest_disjoint olds hNodupE e.2.2 htree t ht heq e0
            (treeInnerEls_sub hid) he0t
      · have hidm : e0 ∈ removeIds (keyedRemovals parent (build_keyed olds) used) :=
          mem_removeIds.mpr hin
        obtain ⟨e, hem, helx, hux⟩ := keyedRemovals_removeIds_sub _ parent _ e0 hidm
        have htree : e.2.2 ∈ olds := build_keyed_tree_mem hem
        by_cases heq : e.2.2 = t
        · have hkey := build_keyed_key hem
          rw [heq, htk] at hkey
          injection hkey with hke
          rw [hused, ← hke] at hux
          have hc : (news.filterMap truthyKey).contains k = true :=
            List.elem_eq_true_of_mem hkyes
          rw [hc] at hux
          cases hux
        · exact nodup_forest_disjoint olds hNodupE e.2.2 htree t ht heq e0
            (root_in_treeEls helx) he0t
    · intro habs
      rw [createIds_append, keyedRemovals_createIds, List.append_nil] at habs
      have hge := r2 e0 habs
      have hlt := hFresh e0 (treeEls_sub_forest olds t ht e0 he0t)
      omega

theorem claim_C3_witness :
    (∀ t ∈ ([.elem "div" [] [] (some "a") (some 1),
          .elem "div" [] [] (some "b") (some 2)] : List VTree),
      ∀ k e0, truthyKey t = some k → elOf t = some e0 →
        k ∉ ([.elem "div" [] [] (some "a") none] : List VTree).filterMap truthyKey →
        Op.removeEl e0 ∈ (patch_keyed_children (some 0)
          [.elem "div" [] [] (some "a") (some 1),
           .elem "div" [] [] (some "b") (some 2)]
          [.elem "div" [] [] (some "a") none] 10).2.2) ∧
    (∀ t ∈ ([.elem "div" [] [] (some "a") (some 1),
          .elem "div" [] [] (some "b") (some 2)] : List VTree),
      ∀ k e0, truthyKey t = some k → elOf t = some e0 →
        k ∈ ([.elem "div" [] [] (some "a") none] : List VTree).filterMap truthyKey →
        Op.removeEl e0 ∉ (patch_keyed_children (some 0)
          [.elem "div" [] [] (some "a") (some 1),
           .elem "div" [] [] (some "b") (some 2)]
          [.elem "div" [] [] (some "a") none] 10).2.2 ∧
        e0 ∉ createIds (patch_keyed_children (some 0)
          [.elem "div" [] [] (some "a") (some 1),
           .elem "div" [] [] (some "b") (some 2)]
          [.elem "div" [] [] (some "a") none] 10).2.2) ∧
    List.Forall₂ (fun c c' => ∀ k io, truthyKey c = some k →
      dictGet (build_keyed [.elem "div" [] [] (some "a") (some 1),
        .elem "div" [] [] (some "b") (some 2)]) k = some io →
      elOf c' = elOf io.2)
      [.elem "div" [] [] (some "a") none]
      (patch_keyed_children (some 0)
        [.elem "div" [] [] (some "a") (some 1),
         .elem "div" [] [] (some "b") (some 2)]
        [.elem "div" [] [] (some "a") none] 10).1 := by
  refine claim_C3 (some 0)
    [.elem "div" [] [] (some "a") (some 1), .elem "div" [] [] (some "b") (some 2)]
    [.elem "div" [] [] (some "a") none] 10
    (patch_keyed_children (some 0)
      [.elem "div" [] [] (some "a") (some 1),
       .elem "div" [] [] (some "b") (some 2)]
      [.elem "div" [] [] (some "a") none] 10).1
    (patch_keyed_children (some 0)
      [.elem "div" [] [] (some "a") (some 1),
       .elem "div" [] [] (some "b") (some 2)]
      [.elem "div" [] [] (some "a") none] 10).2.1
    (patch_keyed_children (some 0)
      [.elem "div" [] [] (some "a") (some 1),
       .elem "div" [] [] (some "b") (some 2)]
      [.elem "div" [] [] (some "a") none] 10).2.2
    (by decide) (by decide) (by decide) ?_ rfl
  intro c hc k io h1 h2
  have hc2 := List.mem_singleton.mp hc
  subst hc2
  simp only [truthyKey, if_neg (by decide : ¬("a" : String) = ""),
    Option.some.injEq] at h1
  subst h1
  simp [build_keyed, buildKeyedAux, dictInsert, dictGet, List.find?] at h2
  subst h2
  decide

end PickleReactor
